import Mathlib

/-!
# weightVals: merging the measurements matched to one Fourier grid point

A shallow embedding of `src/source/weightVals.cpp` (the MEX routine `mexFunction`).

Number model.  The routine computes on C `double`s.  The definitions of the embedding are
written once, over any number type `α` that has the operations the code uses (`+`, `-`,
`*`, `/`, unary minus, `<`, `abs`, the literals `0`, `2` and `1e-30`).  The two calls into
the C math library (`sqrt`, `atan2`) and the constant `PI` are collected in a record
`Libm α`.  The definitions are then read in two ways:

* on `Dbl`, the IEEE 754 binary64 numbers with round-to-nearest-even, NaN, infinities,
  signed zeros, subnormals, underflow and overflow: this is what the compiled code does;
* on a linearly ordered field (the reals), where a `double` is read as the real number it
  denotes and nothing is rounded: this is exact arithmetic, and `Libm.IsExact` says that
  `sqrt` and `atan2` are the real functions.

Structural results (what is summed, which slot is written) are proved in exact arithmetic.
Results about the values that come out are proved on `Dbl` where the claim is about the
code, and in exact arithmetic where it is stated so.

Memory model.  The input arrays are lists; a read outside an array (undefined behaviour in
C++) and a `resize` to a negative length (which throws `std::length_error`) make the run
return `none`.  The index arrays `multiInd` and `uniqueInd` hold MATLAB indices stored as
doubles; the embedding stores their integer values.
-/

namespace WeightVals

/-- The numeric services the routine takes from its environment: `sqrt` and `atan2` of
`<cmath>`, and the constant of line 26, `const double PI = 3.14159265358979323846`
(the double nearest to π). -/
structure Libm (α : Type) where
  /-- `sqrt(x)` -/
  sqrt : α → α
  /-- `atan2(y, x)` -/
  atan2 : α → α → α
  /-- `PI` -/
  PI : α

/-- One raw measurement: the entries the four data arrays hold at one index `k`. -/
structure Sample (α : Type) where
  /-- `masterValuesReal[k]` -/
  valueReal : α
  /-- `masterValuesComplex[k]` -/
  valueComplex : α
  /-- `masterDistances[k]` -/
  distance : α
  /-- `masterConfidenceWeights[k]` -/
  confidenceWeight : α
  deriving DecidableEq

/-- The six output channels at one output index `i` (`plhs[0]` to `plhs[5]`). -/
structure MergedGridPoint (α : Type) where
  /-- `magnitudesOut[i]` -/
  magnitudesOut : α
  /-- `valuesOutReal[i]` -/
  valuesOutReal : α
  /-- `valuesOutComplex[i]` -/
  valuesOutComplex : α
  /-- `weightedConfidenceWeights[i]` -/
  weightedConfidenceWeights : α
  /-- `weightedDistances[i]` -/
  weightedDistances : α
  /-- `sigmaPhases[i]` -/
  sigmaPhases : α
  deriving DecidableEq

/-- The inputs of one call: the dimensions of `prhs[0]` and the five input arrays. -/
structure Inputs (α : Type) where
  /-- `dims[0]` of `prhs[0]` -/
  dimy : Nat
  /-- `dims[1]` of `prhs[0]` -/
  numInd : Nat
  /-- `prhs[0]` -/
  multiInd : List Int
  /-- `prhs[1]` -/
  masterDistances : List α
  /-- real part of `prhs[2]` -/
  masterValuesReal : List α
  /-- imaginary part of `prhs[2]` -/
  masterValuesComplex : List α
  /-- `prhs[3]` -/
  uniqueInd : List Int
  /-- `prhs[4]` -/
  masterConfidenceWeights : List α

/-- The absolute value `abs` of `<cmath>` on the number type. -/
class FAbs (α : Type) where
  /-- `abs(x)` -/
  fabs : α → α

instance instFAbsOfField {α : Type} [LinearOrderedField α] : FAbs α := ⟨fun x => |x|⟩

section Model

variable {α : Type} [Zero α] [OfNat α 2] [OfScientific α] [Add α] [Sub α] [Mul α] [Div α]
  [Neg α] [LT α] [DecidableRel fun a b : α => a < b] [FAbs α]

/-- The stabilising literal `1e-30` of lines 89, 90, 97 and 127. -/
def eps : α := 1e-30

/-- An output slot as `mxCreateDoubleMatrix` creates it: every channel is 0. -/
def zeroPoint : MergedGridPoint α := ⟨0, 0, 0, 0, 0, 0⟩

/-- One pass of the first inner loop (line 90): the running `distanceSum`. -/
def distanceSumStep (distanceSum : α) (s : Sample α) : α :=
  distanceSum + (s.confidenceWeight + eps) / (s.distance + eps)

/-- The first inner loop (lines 83 to 92): `distanceSum` over the group. -/
def distanceSumLoop (g : List (Sample α)) : α :=
  g.foldl distanceSumStep 0

/-- The weight `tmpWeights[j]` of line 97. -/
def tmpWeight (distanceSum : α) (s : Sample α) : α :=
  s.confidenceWeight / (s.distance + eps) / distanceSum

/-- One pass of the second inner loop (lines 97 to 102).  `tmpDistances[j]` was stored on
line 89 as `masterDistances[ind1 + j] + 1e-30`. -/
def accumulateStep (m : Libm α) (distanceSum : α) (out : MergedGridPoint α) (s : Sample α) :
    MergedGridPoint α :=
  let w := tmpWeight distanceSum s
  { out with
    valuesOutReal := out.valuesOutReal + w * s.valueReal
    valuesOutComplex := out.valuesOutComplex + w * s.valueComplex
    magnitudesOut := out.magnitudesOut
      + w * m.sqrt (s.valueReal * s.valueReal + s.valueComplex * s.valueComplex)
    weightedConfidenceWeights := out.weightedConfidenceWeights + w * s.confidenceWeight
    weightedDistances := out.weightedDistances + w * (s.distance + eps) }

/-- The residual `phaseResiduals[j]` of lines 113 to 122, for a sample phase
`tmpPhases1[j]` and the representative phase `weightedPhase`.  With `<cmath>` and
`using namespace std`, `abs` on a `double` is the floating-point absolute value. -/
def phaseResidual (PI tmpPhase weightedPhase : α) : α :=
  let factor := if tmpPhase > weightedPhase then -2 * PI else 2 * PI
  let residual1 := FAbs.fabs (tmpPhase - weightedPhase)
  let residual2 := FAbs.fabs (tmpPhase + factor - weightedPhase)
  if residual1 < residual2 then residual1 else residual2

/-- One pass of the third inner loop (lines 111 to 124) on the pair
`(sigmaPhaseSum, weightSum)`. -/
def sigmaStep (m : Libm α) (distanceSum weightedPhase : α) (acc : α × α) (s : Sample α) :
    α × α :=
  let r := phaseResidual m.PI (m.atan2 s.valueComplex s.valueReal) weightedPhase
  let w := tmpWeight distanceSum s
  (acc.1 + w * r * r, acc.2 + w)

/-- The body of the outer loop (lines 83 to 128) for one output index: `slot` is what the
six channels hold at that index on entry, `g` the samples of the group in order. -/
def weightGroup (m : Libm α) (slot : MergedGridPoint α) (g : List (Sample α)) :
    MergedGridPoint α :=
  let distanceSum := distanceSumLoop g
  let out := g.foldl (accumulateStep m distanceSum)
    { slot with valuesOutReal := 0, magnitudesOut := 0, valuesOutComplex := 0 }
  let weightedPhase := m.atan2 out.valuesOutComplex out.valuesOutReal
  let acc := g.foldl (sigmaStep m distanceSum weightedPhase) (0, 0)
  { out with sigmaPhases := m.sqrt (acc.1 / (acc.2 + eps)) }

/-- The merge of one group into a freshly created output slot. -/
def mergeGroup (m : Libm α) (g : List (Sample α)) : MergedGridPoint α :=
  weightGroup m zeroPoint g

/-- A bounds-checked read `xs[k]` at a signed index. -/
def readAt {β : Type} (xs : List β) (k : Int) : Option β :=
  if 0 ≤ k then xs[k.toNat]? else none

/-- The sample at index `k` of the four data arrays. -/
def readSample (inp : Inputs α) (k : Int) : Option (Sample α) := do
  let r ← readAt inp.masterValuesReal k
  let c ← readAt inp.masterValuesComplex k
  let d ← readAt inp.masterDistances k
  let w ← readAt inp.masterConfidenceWeights k
  pure ⟨r, c, d, w⟩

/-- Lines 71 to 73: `ind1` and `lengthOfVector` for output index `i`. -/
def groupBounds (inp : Inputs α) (i : Nat) : Option (Int × Int) := do
  let mi ← inp.multiInd[i]?
  let u1 ← readAt inp.uniqueInd (mi - 1)
  let u2 ← readAt inp.uniqueInd mi
  let ind1 := u1 - 1
  let ind2 := u2 - 2
  pure (ind1, ind2 - ind1 + 1)

/-- The reads of the first inner loop (lines 87 to 91): the `n` samples at indices
`k, k + 1, ..., k + n - 1`, in order. -/
def readGroup (inp : Inputs α) : Int → Nat → Option (List (Sample α))
  | _, 0 => some []
  | k, n + 1 => do
    let s ← readSample inp k
    let rest ← readGroup inp (k + 1) n
    pure (s :: rest)

/-- The samples of group `i`: indices `ind1 + j` for `0 ≤ j ≤ lengthOfVector - 1`. -/
def groupOf (inp : Inputs α) (i : Nat) : Option (List (Sample α)) := do
  let b ← groupBounds inp i
  if b.2 < 0 then none else readGroup inp b.1 b.2.toNat

/-- One pass of the outer loop (lines 70 to 129) on the output slots. -/
def outerStep (m : Libm α) (inp : Inputs α) (out : List (MergedGridPoint α)) (i : Nat) :
    Option (List (MergedGridPoint α)) := do
  let g ← groupOf inp i
  let slot ← out[i]?
  pure (out.set i (weightGroup m slot g))

/-- The routine: the outputs are created with `dimy * numInd` zero slots, then the outer
loop runs for `i = 0, ..., numInd - 2`. -/
def mexFunction (m : Libm α) (inp : Inputs α) : Option (List (MergedGridPoint α)) :=
  (List.range (inp.numInd - 1)).foldlM (outerStep m inp)
    (List.replicate (inp.dimy * inp.numInd) zeroPoint)

/-- The representative phase of line 105 for the merge of `g`. -/
def weightedPhase (m : Libm α) (g : List (Sample α)) : α :=
  m.atan2 (mergeGroup m g).valuesOutComplex (mergeGroup m g).valuesOutReal

/-- The phase `tmpPhases1[j]` of line 111. -/
def tmpPhase (m : Libm α) (s : Sample α) : α :=
  m.atan2 s.valueComplex s.valueReal

/-- The output slots once the outer loop has run for `i = 0, ..., k - 1`: slot `i < k`
holds the merge of group `i`, every other slot is as created. -/
def slotsAfter (m : Libm α) (inp : Inputs α) (k : Nat) : List (MergedGridPoint α) :=
  (List.range (inp.dimy * inp.numInd)).map fun i =>
    if i < k then mergeGroup m ((groupOf inp i).getD []) else zeroPoint

/-- The value of `weightSum` after the third inner loop (line 124) in the merge of `g`. -/
def weightSum (m : Libm α) (g : List (Sample α)) : α :=
  (g.foldl (sigmaStep m (distanceSumLoop g) (weightedPhase m g)) (0, 0)).2

end Model

section Spec

variable {α : Type} [LinearOrderedField α]

/-- The normalisation sum of the specification,
`S = Σ_j (confidence_j + ε) / (distance_j + ε)`. -/
def specS (g : List (Sample α)) : α :=
  (g.map fun s => (s.confidenceWeight + eps) / (s.distance + eps)).sum

/-- The normalised weight of the specification,
`w_j = confidence_j / (distance_j + ε) / S`. -/
def specWeight (g : List (Sample α)) (s : Sample α) : α :=
  s.confidenceWeight / (s.distance + eps) / specS g

/-- The normalisation sum without the `ε` added to the confidence,
`Σ_j confidence_j / (distance_j + ε)`. -/
def confSum (g : List (Sample α)) : α :=
  (g.map fun s => s.confidenceWeight / (s.distance + eps)).sum

/-- The sum of the inverse distances, `Σ_j 1 / (distance_j + ε)`. -/
def invDistSum (g : List (Sample α)) : α :=
  (g.map fun s => 1 / (s.distance + eps)).sum

/-- The sample `s` with its confidence multiplied by `k`. -/
def scaleConfidence (k : α) (s : Sample α) : Sample α :=
  { s with confidenceWeight := k * s.confidenceWeight }

end Spec

/-- The record `m` computes the real functions: `sqrt` is the real square root, `atan2 y x`
is the argument of `x + y i` in `(-π, π]` (0 at the origin), and `PI` is π. -/
def Libm.IsExact (m : Libm ℝ) : Prop :=
  (∀ x, m.sqrt x = Real.sqrt x) ∧ (∀ y x, m.atan2 y x = Complex.arg ⟨x, y⟩) ∧ m.PI = Real.pi

/-! ## IEEE 754 binary64 arithmetic

The code runs on C `double`s.  `Dbl` is the binary64 format with round-to-nearest-even:
a finite value is `± units · 2⁻¹⁰⁷⁴` (2⁻¹⁰⁷⁴ is the smallest subnormal), so every finite
double, normal or subnormal, is a natural number of units and a sign. -/

/-- A binary64 value: NaN, `±∞`, or the finite value `± units · 2⁻¹⁰⁷⁴`. -/
inductive Dbl where
  /-- not a number -/
  | nan : Dbl
  /-- `+∞` (`neg = false`) or `-∞` -/
  | inf (neg : Bool) : Dbl
  /-- the finite value `± units · 2⁻¹⁰⁷⁴`; `units = 0` gives `+0` and `-0` -/
  | fin (neg : Bool) (units : Nat) : Dbl
  deriving DecidableEq

namespace Dbl

/-- Bisection for `bitLength`: the least `b` in `[lo, lo + 2^fuel)` with `n < 2^b`. -/
def bitLengthAux (n : Nat) : Nat → Nat → Nat
  | 0, lo => lo
  | fuel + 1, lo =>
    if n < 1 <<< (lo + (1 <<< fuel) - 1) then bitLengthAux n fuel lo
    else bitLengthAux n fuel (lo + (1 <<< fuel))

/-- The number of binary digits of `n` (0 for `n = 0`), for `n < 2^65535`. -/
def bitLength (n : Nat) : Nat := bitLengthAux n 16 0

/-- The double nearest to `± (N / D) · 2⁻¹⁰⁷⁴` (ties to even), for `D > 0`: the quotient
is cut to 53 significant bits, rounded on the remainder, and overflows to `±∞` from
`2¹⁰²⁴` on. -/
def roundUnits (neg : Bool) (N D : Nat) : Dbl :=
  let s := bitLength (N / D) - 53
  let D2 := D <<< s
  let q := N / D2
  let r := N % D2
  let q1 := if D2 < 2 * r ∨ (2 * r = D2 ∧ q % 2 = 1) then q + 1 else q
  if 1 <<< 2098 ≤ q1 <<< s then inf neg else fin neg (q1 <<< s)

/-- Newton iteration for `isqrt`, from a start `x` not below the root. -/
def isqrtAux (T : Nat) : Nat → Nat → Nat
  | 0, x => x
  | fuel + 1, x =>
    let y := (x + T / x) / 2
    if y < x then isqrtAux T fuel y else x

/-- The integer square root `⌊√T⌋`. -/
def isqrt (T : Nat) : Nat :=
  if T = 0 then 0 else isqrtAux T (bitLength T + 2) (1 <<< ((bitLength T + 1) / 2))

/-- `-x` -/
def neg : Dbl → Dbl
  | nan => nan
  | inf s => inf (!s)
  | fin s m => fin (!s) m

/-- `x + y`, rounded -/
def add : Dbl → Dbl → Dbl
  | nan, _ => nan
  | _, nan => nan
  | inf a, inf b => if a = b then inf a else nan
  | inf a, fin _ _ => inf a
  | fin _ _, inf b => inf b
  | fin a m, fin b n =>
    if a = b then roundUnits a (m + n) 1
    else if m = n then fin false 0
    else if n < m then roundUnits a (m - n) 1
    else roundUnits b (n - m) 1

/-- `x - y`, rounded -/
def sub (x y : Dbl) : Dbl := add x (neg y)

/-- `x * y`, rounded -/
def mul : Dbl → Dbl → Dbl
  | nan, _ => nan
  | _, nan => nan
  | inf a, inf b => inf (a != b)
  | inf a, fin b n => if n = 0 then nan else inf (a != b)
  | fin a m, inf b => if m = 0 then nan else inf (a != b)
  | fin a m, fin b n => roundUnits (a != b) (m * n) (1 <<< 1074)

/-- `x / y`, rounded -/
def div : Dbl → Dbl → Dbl
  | nan, _ => nan
  | _, nan => nan
  | inf _, inf _ => nan
  | inf a, fin b _ => inf (a != b)
  | fin a _, inf b => fin (a != b) 0
  | fin a m, fin b n =>
    if n = 0 then (if m = 0 then nan else inf (a != b))
    else roundUnits (a != b) (m <<< 1074) n

/-- `sqrt(x)`, correctly rounded -/
def sqrt : Dbl → Dbl
  | nan => nan
  | inf s => if s then nan else inf false
  | fin s m =>
    if m = 0 then fin s 0
    else if s then nan
    else
      let T := m <<< (1074 + 4)
      let R := isqrt T
      roundUnits false (2 * R + (if R * R = T then 0 else 1)) (1 <<< 3)

/-- `abs(x)` -/
def abs : Dbl → Dbl
  | nan => nan
  | inf _ => inf false
  | fin _ m => fin false m

/-- `x < y` (false when either side is NaN; `-0 < +0` is false) -/
def blt : Dbl → Dbl → Bool
  | nan, _ => false
  | _, nan => false
  | inf a, inf b => a && !b
  | inf a, fin _ _ => a
  | fin _ _, inf b => !b
  | fin a m, fin b n =>
    match a, b with
    | false, false => decide (m < n)
    | true, true => decide (n < m)
    | true, false => decide (0 < m ∨ 0 < n)
    | false, true => false

/-- `x ≤ y` (false when either side is NaN; `-0 ≤ +0` is true) -/
def ble : Dbl → Dbl → Bool
  | nan, _ => false
  | _, nan => false
  | inf a, inf b => a || !b
  | inf a, fin _ _ => a
  | fin _ _, inf b => !b
  | fin a m, fin b n =>
    match a, b with
    | false, false => decide (m ≤ n)
    | true, true => decide (n ≤ m)
    | true, false => true
    | false, true => decide (m = 0 ∧ n = 0)

/-- The finite value of a double as a signed number of units of `2⁻¹⁰⁷⁴` (0 for NaN and
`±∞`). -/
def toUnits : Dbl → Int
  | nan => 0
  | inf _ => 0
  | fin s m => if s then -(m : Int) else (m : Int)

/-- The double nearest to the natural number `n`. -/
def ofNat (n : Nat) : Dbl := roundUnits false (n <<< 1074) 1

/-- The double nearest to the decimal literal `mant · 10^(± e)`. -/
def ofScientific (mant : Nat) (negExp : Bool) (e : Nat) : Dbl :=
  if negExp then roundUnits false (mant <<< 1074) (10 ^ e)
  else roundUnits false ((mant * 10 ^ e) <<< 1074) 1

/-- The IEEE 754 bit pattern (sign, 11 exponent bits, 52 fraction bits) of a double;
NaN is given as the quiet NaN `0x7FF8000000000000`. -/
def toBits : Dbl → Nat
  | nan => 0x7FF8000000000000
  | inf s => (if s then 1 <<< 63 else 0) + 0x7FF0000000000000
  | fin s m =>
    let b := bitLength m
    (if s then 1 <<< 63 else 0) +
      (if b ≤ 52 then m else ((b - 52) <<< 52) + ((m >>> (b - 53)) - (1 <<< 52)))

/-- The double with the IEEE 754 bit pattern `bits` (any NaN pattern gives `nan`). -/
def ofBits (bits : Nat) : Dbl :=
  let s := (bits >>> 63) % 2 = 1
  let E := (bits >>> 52) % 2048
  let f := bits % (1 <<< 52)
  if E = 2047 then (if f = 0 then inf s else nan)
  else if E = 0 then fin s f
  else fin s (((1 <<< 52) + f) <<< (E - 1))

/-- The sign bit is clear, or the value is NaN: `+0`, a positive number, `+∞` or NaN. -/
def signClear : Dbl → Bool
  | nan => true
  | inf s => !s
  | fin s _ => !s

/-- The value is NaN or not below zero: `signClear`, or `-0`. -/
def notNeg : Dbl → Bool
  | nan => true
  | inf s => !s
  | fin s m => !s || decide (m = 0)

/-- The value is a finite number. -/
def isFinite : Dbl → Bool
  | fin _ _ => true
  | _ => false

instance : Zero Dbl := ⟨fin false 0⟩
instance (n : Nat) : OfNat Dbl n := ⟨ofNat n⟩
instance : OfScientific Dbl := ⟨ofScientific⟩
instance : Add Dbl := ⟨add⟩
instance : Sub Dbl := ⟨sub⟩
instance : Mul Dbl := ⟨mul⟩
instance : Div Dbl := ⟨div⟩
instance : Neg Dbl := ⟨neg⟩
instance : LT Dbl := ⟨fun x y => blt x y = true⟩
instance : DecidableRel fun a b : Dbl => a < b :=
  fun x y => inferInstanceAs (Decidable (blt x y = true))
instance : LE Dbl := ⟨fun x y => ble x y = true⟩
instance : DecidableRel fun a b : Dbl => a ≤ b :=
  fun x y => inferInstanceAs (Decidable (ble x y = true))
instance : FAbs Dbl := ⟨abs⟩

end Dbl

/-- The numeric environment of the routine on doubles: the correctly rounded `sqrt` that
IEEE 754 prescribes and the constant `PI` of line 26.  The rounding of `atan2` is left to
the C library, so `atan2` stays a parameter. -/
def dblLibm (atan2 : Dbl → Dbl → Dbl) : Libm Dbl :=
  ⟨Dbl.sqrt, atan2, 3.14159265358979323846⟩

/-! ## Shared lemmas: records and reads -/

section Structural

variable {α : Type}

theorem MergedGridPoint.eq_of_fields (a b : MergedGridPoint α)
    (h1 : a.magnitudesOut = b.magnitudesOut) (h2 : a.valuesOutReal = b.valuesOutReal)
    (h3 : a.valuesOutComplex = b.valuesOutComplex)
    (h4 : a.weightedConfidenceWeights = b.weightedConfidenceWeights)
    (h5 : a.weightedDistances = b.weightedDistances) (h6 : a.sigmaPhases = b.sigmaPhases) :
    a = b := by
  cases a; cases b; simp_all

theorem readGroup_congr (inp1 inp2 : Inputs α) (n : Nat) (k : Int)
    (h : ∀ j : Int, k ≤ j → j < k + n → readSample inp1 j = readSample inp2 j) :
    readGroup inp1 k n = readGroup inp2 k n := by
  induction n generalizing k with
  | zero => rfl
  | succ n ih =>
    have h0 := h k (le_refl _) (by push_cast; omega)
    have h1 := ih (k + 1) (fun j hj1 hj2 => h j (by omega) (by push_cast; omega))
    simp only [readGroup, h0, h1]

theorem groupBounds_congr (inp1 inp2 : Inputs α) (i : Nat)
    (hm : inp2.multiInd = inp1.multiInd) (hu : inp2.uniqueInd = inp1.uniqueInd) :
    groupBounds inp2 i = groupBounds inp1 i := by
  simp only [groupBounds, hm, hu]

end Structural

/-! ## Shared lemmas: the inner loops as sums -/

section Lemmas

variable {α : Type} [LinearOrderedField α]

theorem eps_pos : (0 : α) < eps := by
  unfold eps; norm_num

theorem foldl_distanceSumStep (g : List (Sample α)) (a : α) :
    g.foldl distanceSumStep a
      = a + (g.map fun s => (s.confidenceWeight + eps) / (s.distance + eps)).sum := by
  induction g generalizing a with
  | nil => simp
  | cons s t ih => simp [List.foldl_cons, ih, distanceSumStep, add_assoc]

theorem distanceSumLoop_eq_specS (g : List (Sample α)) : distanceSumLoop g = specS g := by
  simp [distanceSumLoop, specS, foldl_distanceSumStep]

theorem tmpWeight_eq_specWeight (g : List (Sample α)) (s : Sample α) :
    tmpWeight (distanceSumLoop g) s = specWeight g s := by
  simp [tmpWeight, specWeight, distanceSumLoop_eq_specS]

theorem foldl_accumulateStep (m : Libm α) (S : α) (g : List (Sample α)) (o : MergedGridPoint α) :
    g.foldl (accumulateStep m S) o =
      { magnitudesOut := o.magnitudesOut + (g.map fun s => tmpWeight S s *
          m.sqrt (s.valueReal * s.valueReal + s.valueComplex * s.valueComplex)).sum
        valuesOutReal := o.valuesOutReal + (g.map fun s => tmpWeight S s * s.valueReal).sum
        valuesOutComplex := o.valuesOutComplex
          + (g.map fun s => tmpWeight S s * s.valueComplex).sum
        weightedConfidenceWeights := o.weightedConfidenceWeights
          + (g.map fun s => tmpWeight S s * s.confidenceWeight).sum
        weightedDistances := o.weightedDistances
          + (g.map fun s => tmpWeight S s * (s.distance + eps)).sum
        sigmaPhases := o.sigmaPhases } := by
  induction g generalizing o with
  | nil => simp
  | cons s t ih => simp [List.foldl_cons, ih, accumulateStep, add_assoc]

theorem foldl_sigmaStep (m : Libm α) (S q : α) (g : List (Sample α)) (acc : α × α) :
    g.foldl (sigmaStep m S q) acc =
      (acc.1 + (g.map fun s => tmpWeight S s *
          phaseResidual m.PI (m.atan2 s.valueComplex s.valueReal) q *
          phaseResidual m.PI (m.atan2 s.valueComplex s.valueReal) q).sum,
       acc.2 + (g.map fun s => tmpWeight S s).sum) := by
  induction g generalizing acc with
  | nil => simp
  | cons s t ih => simp [List.foldl_cons, ih, sigmaStep, add_assoc]

/-- The four linear channels and the distance channel of a merge, as sums. -/
theorem mergeGroup_linear (m : Libm α) (g : List (Sample α)) :
    (mergeGroup m g).valuesOutReal = (g.map fun s => specWeight g s * s.valueReal).sum ∧
    (mergeGroup m g).valuesOutComplex = (g.map fun s => specWeight g s * s.valueComplex).sum ∧
    (mergeGroup m g).magnitudesOut = (g.map fun s => specWeight g s *
      m.sqrt (s.valueReal * s.valueReal + s.valueComplex * s.valueComplex)).sum ∧
    (mergeGroup m g).weightedConfidenceWeights
      = (g.map fun s => specWeight g s * s.confidenceWeight).sum ∧
    (mergeGroup m g).weightedDistances
      = (g.map fun s => specWeight g s * (s.distance + eps)).sum := by
  simp [mergeGroup, weightGroup, foldl_accumulateStep, zeroPoint, tmpWeight_eq_specWeight]

theorem specS_pos (g : List (Sample α)) (hne : g ≠ [])
    (h : ∀ s ∈ g, 0 ≤ s.confidenceWeight ∧ 0 ≤ s.distance) : 0 < specS g := by
  unfold specS
  have key : ∀ t : List (Sample α), (∀ s ∈ t, 0 ≤ s.confidenceWeight ∧ 0 ≤ s.distance) →
      0 ≤ (t.map fun s => (s.confidenceWeight + eps) / (s.distance + eps)).sum := by
    intro t ht
    apply List.sum_nonneg
    intro x hx
    obtain ⟨s, hs, rfl⟩ := List.mem_map.1 hx
    have := ht s hs
    have e := eps_pos (α := α)
    exact div_nonneg (by linarith) (by linarith)
  cases g with
  | nil => exact absurd rfl hne
  | cons a t =>
    have ha := h a (List.mem_cons_self _ _)
    have ht := key t (fun s hs => h s (List.mem_cons_of_mem _ hs))
    have e := eps_pos (α := α)
    have : 0 < (a.confidenceWeight + eps) / (a.distance + eps) :=
      div_pos (by linarith) (by linarith)
    simp only [List.map_cons, List.sum_cons]
    linarith

theorem specWeight_nonneg (g : List (Sample α)) (hne : g ≠ [])
    (h : ∀ s ∈ g, 0 ≤ s.confidenceWeight ∧ 0 ≤ s.distance) (s : Sample α) (hs : s ∈ g) :
    0 ≤ specWeight g s := by
  have e := eps_pos (α := α)
  have hS := specS_pos g hne h
  have := h s hs
  exact div_nonneg (div_nonneg this.1 (by linarith)) hS.le

theorem specWeight_single (s : Sample α) (hd : 0 ≤ s.distance) :
    specWeight [s] s = s.confidenceWeight / (s.confidenceWeight + eps) := by
  have e := eps_pos (α := α)
  have h1 : s.distance + eps ≠ 0 := by linarith
  simp only [specWeight, specS, List.map_cons, List.map_nil, List.sum_cons, List.sum_nil,
    add_zero]
  rw [div_div_div_cancel_right₀ h1]

theorem fabs_eq_abs (x : α) : FAbs.fabs x = |x| := rfl

theorem ite_lt_eq_min (a b : α) : (if a < b then a else b) = min a b := by
  split_ifs with h
  · exact (min_eq_left h.le).symm
  · exact (min_eq_right (not_lt.1 h)).symm

theorem phaseResidual_eq_min (PI p q : α) (hp1 : -PI < p) (hp2 : p ≤ PI) (hq1 : -PI < q)
    (hq2 : q ≤ PI) : phaseResidual PI p q = min |p - q| (2 * PI - |p - q|) := by
  unfold phaseResidual
  simp only [gt_iff_lt, fabs_eq_abs]
  rw [ite_lt_eq_min]
  by_cases hpq : q < p
  · rw [if_pos hpq, abs_of_pos (by linarith : 0 < p - q),
      abs_of_neg (by linarith : p + -2 * PI - q < 0)]
    congr 1; ring
  · rw [if_neg hpq, abs_of_nonpos (by linarith : p - q ≤ 0),
      abs_of_pos (by linarith : 0 < p + 2 * PI - q)]
    congr 1; ring

theorem phaseResidual_self (PI p : α) (hPI : 0 < PI) : phaseResidual PI p p = 0 := by
  unfold phaseResidual
  simp only [gt_iff_lt, fabs_eq_abs, lt_irrefl, if_false, sub_self, abs_zero]
  rw [if_pos (by rw [abs_pos]; intro h; linarith)]

theorem mergeGroup_sigma (m : Libm α) (g : List (Sample α)) :
    (mergeGroup m g).sigmaPhases = m.sqrt
      ((g.map fun s => specWeight g s * phaseResidual m.PI (tmpPhase m s) (weightedPhase m g)
          * phaseResidual m.PI (tmpPhase m s) (weightedPhase m g)).sum
        / ((g.map fun s => specWeight g s).sum + eps)) := by
  simp [mergeGroup, weightGroup, foldl_accumulateStep, foldl_sigmaStep, zeroPoint,
    tmpWeight_eq_specWeight, weightedPhase, tmpPhase]

theorem list_sum_eq_zero_iff (l : List α) (h : ∀ x ∈ l, 0 ≤ x) :
    l.sum = 0 ↔ ∀ x ∈ l, x = 0 := by
  induction l with
  | nil => simp
  | cons a t ih =>
    have ha := h a (List.mem_cons_self _ _)
    have ht : ∀ x ∈ t, 0 ≤ x := fun x hx => h x (List.mem_cons_of_mem _ hx)
    have hs := List.sum_nonneg ht
    simp only [List.sum_cons, List.mem_cons, forall_eq_or_imp]
    rw [← ih ht]
    constructor
    · intro h0; constructor <;> linarith
    · rintro ⟨h1, h2⟩; linarith

theorem phaseResidual_eq_zero_iff (PI p q : α) (hp1 : -PI < p) (hp2 : p ≤ PI) (hq1 : -PI < q)
    (hq2 : q ≤ PI) : phaseResidual PI p q = 0 ↔ p = q := by
  rw [phaseResidual_eq_min PI p q hp1 hp2 hq1 hq2]
  have habs : |p - q| < 2 * PI := by rw [abs_lt]; constructor <;> linarith
  constructor
  · intro h
    rcases min_choice |p - q| (2 * PI - |p - q|) with h1 | h1
    · rw [h1] at h; exact sub_eq_zero.1 (abs_eq_zero.1 h)
    · rw [h1] at h; linarith
  · rintro rfl
    simp only [sub_self, abs_zero, sub_zero]
    exact min_eq_left (by linarith)

theorem specWeight_pos_iff (g : List (Sample α)) (hne : g ≠ [])
    (h : ∀ s ∈ g, 0 ≤ s.confidenceWeight ∧ 0 ≤ s.distance) (s : Sample α) (hs : s ∈ g) :
    0 < specWeight g s ↔ 0 < s.confidenceWeight := by
  have e := eps_pos (α := α)
  have hS := specS_pos g hne h
  have hd : 0 < s.distance + eps := by linarith [(h s hs).2]
  unfold specWeight
  constructor
  · intro hw
    by_contra hc
    have : s.confidenceWeight = 0 := le_antisymm (not_lt.1 hc) (h s hs).1
    rw [this] at hw; simp at hw
  · intro hc
    exact div_pos (div_pos hc hd) hS

theorem slotsAfter_length (m : Libm α) (inp : Inputs α) (k : Nat) :
    (slotsAfter m inp k).length = inp.dimy * inp.numInd := by
  simp [slotsAfter]

theorem slotsAfter_get (m : Libm α) (inp : Inputs α) (k i : Nat)
    (hi : i < inp.dimy * inp.numInd) :
    (slotsAfter m inp k)[i]? =
      some (if i < k then mergeGroup m ((groupOf inp i).getD []) else zeroPoint) := by
  simp [slotsAfter, List.getElem?_map, List.getElem?_range hi]

theorem slotsAfter_zero (m : Libm α) (inp : Inputs α) :
    slotsAfter m inp 0 = List.replicate (inp.dimy * inp.numInd) zeroPoint := by
  apply List.ext_getElem?
  intro i
  by_cases hi : i < inp.dimy * inp.numInd
  · rw [slotsAfter_get m inp 0 i hi]
    simp [List.getElem?_replicate, hi]
  · have h1 : (slotsAfter m inp 0).length ≤ i := by
      rw [slotsAfter_length]; exact not_lt.1 hi
    rw [List.getElem?_eq_none h1, List.getElem?_eq_none (by simpa using not_lt.1 hi)]

theorem outerStep_slotsAfter (m : Libm α) (inp : Inputs α) (k : Nat)
    (hk : k < inp.dimy * inp.numInd) (hg : (groupOf inp k).isSome) :
    outerStep m inp (slotsAfter m inp k) k = some (slotsAfter m inp (k + 1)) := by
  obtain ⟨g, hgk⟩ := Option.isSome_iff_exists.1 hg
  have hslot := slotsAfter_get m inp k k hk
  simp only [lt_irrefl, if_false] at hslot
  simp only [outerStep, hgk, hslot, Option.bind_eq_bind, Option.some_bind, Option.pure_def,
    Option.some.injEq]
  apply List.ext_getElem?
  intro i
  rw [List.getElem?_set]
  by_cases hi : i < inp.dimy * inp.numInd
  · rw [slotsAfter_get m inp (k + 1) i hi, slotsAfter_get m inp k i hi]
    by_cases hki : k = i
    · subst hki
      simp [slotsAfter_length, hk, hgk, mergeGroup]
    · rw [if_neg hki]
      by_cases hlt : i < k
      · rw [if_pos hlt, if_pos (Nat.lt_succ_of_lt hlt)]
      · rw [if_neg hlt, if_neg (by omega)]
  · have h1 : ∀ j, (slotsAfter m inp j).length ≤ i := by
      intro j; rw [slotsAfter_length]; exact not_lt.1 hi
    rw [List.getElem?_eq_none (h1 _), List.getElem?_eq_none (h1 _)]
    split_ifs with h2 h3
    · have := h1 k; omega
    · rfl
    · rfl

theorem foldlM_outerStep (m : Libm α) (inp : Inputs α) (k : Nat)
    (hk : k ≤ inp.dimy * inp.numInd) (hg : ∀ i < k, (groupOf inp i).isSome) :
    (List.range k).foldlM (outerStep m inp)
      (List.replicate (inp.dimy * inp.numInd) zeroPoint) = some (slotsAfter m inp k) := by
  induction k with
  | zero => simp [slotsAfter_zero]
  | succ k ih =>
    rw [List.range_succ, List.foldlM_append,
      ih (Nat.le_of_succ_le hk) (fun i hi => hg i (Nat.lt_succ_of_lt hi))]
    simp only [Option.bind_eq_bind, Option.some_bind, List.foldlM_cons, List.foldlM_nil]
    rw [outerStep_slotsAfter m inp k hk (hg k (Nat.lt_succ_self k))]
    rfl

/-- The run of the routine on a batch all of whose processed groups can be read: the loop
fills slots `0, ..., numInd - 2` and leaves the others as created. -/
theorem mexFunction_eq (m : Libm α) (inp : Inputs α) (hdim : 1 ≤ inp.dimy)
    (hg : ∀ i < inp.numInd - 1, (groupOf inp i).isSome) :
    mexFunction m inp = some (slotsAfter m inp (inp.numInd - 1)) := by
  have h1 : inp.numInd - 1 ≤ inp.dimy * inp.numInd :=
    le_trans (Nat.sub_le _ _) (Nat.le_mul_of_pos_left _ hdim)
  exact foldlM_outerStep m inp _ h1 hg

theorem groupOf_of_length_zero {α : Type} [LinearOrderedField α] (inp : Inputs α) (i : Nat)
    (ind1 : Int) (h : groupBounds inp i = some (ind1, 0)) : groupOf inp i = some [] := by
  simp [groupOf, h, readGroup]

theorem weightSum_eq (m : Libm α) (g : List (Sample α)) :
    weightSum m g = (g.map fun s => specWeight g s).sum := by
  simp [weightSum, foldl_sigmaStep, tmpWeight_eq_specWeight]

theorem specS_eq (g : List (Sample α)) : specS g = confSum g + eps * invDistSum g := by
  unfold specS confSum invDistSum
  induction g with
  | nil => simp
  | cons s t ih =>
    simp only [List.map_cons, List.sum_cons, ih]
    ring

theorem sum_specWeight (g : List (Sample α)) :
    (g.map fun s => specWeight g s).sum = confSum g / specS g := by
  unfold confSum
  rw [div_eq_mul_inv, ← List.sum_map_mul_right]
  exact congrArg List.sum (List.map_congr_left fun s _ => div_eq_mul_inv _ _)

theorem confSum_nonneg (g : List (Sample α))
    (h : ∀ s ∈ g, 0 ≤ s.confidenceWeight ∧ 0 ≤ s.distance) : 0 ≤ confSum g := by
  apply List.sum_nonneg
  intro x hx
  obtain ⟨s, hs, rfl⟩ := List.mem_map.1 hx
  have e := eps_pos (α := α)
  exact div_nonneg (h s hs).1 (by linarith [(h s hs).2])

theorem invDistSum_pos (g : List (Sample α)) (hne : g ≠ [])
    (h : ∀ s ∈ g, 0 ≤ s.confidenceWeight ∧ 0 ≤ s.distance) : 0 < invDistSum g := by
  have e := eps_pos (α := α)
  unfold invDistSum
  cases g with
  | nil => exact absurd rfl hne
  | cons a t =>
    have ht : 0 ≤ (t.map fun s : Sample α => 1 / (s.distance + eps)).sum := by
      apply List.sum_nonneg
      intro x hx
      obtain ⟨s, hs, rfl⟩ := List.mem_map.1 hx
      have := (h s (List.mem_cons_of_mem _ hs)).2
      exact div_nonneg zero_le_one (by linarith)
    have ha : 0 < 1 / (a.distance + eps) :=
      div_pos zero_lt_one (by linarith [(h a (List.mem_cons_self _ _)).2])
    simp only [List.map_cons, List.sum_cons]
    linarith

theorem weightSum_nonneg (m : Libm α) (g : List (Sample α))
    (h : ∀ s ∈ g, 0 ≤ s.confidenceWeight ∧ 0 ≤ s.distance) : 0 ≤ weightSum m g := by
  rw [weightSum_eq]
  rcases List.eq_nil_or_concat g with rfl | ⟨t, a, rfl⟩
  · simp
  · apply List.sum_nonneg
    intro x hx
    obtain ⟨s, hs, rfl⟩ := List.mem_map.1 hx
    exact specWeight_nonneg _ (by simp) h s hs

theorem one_sub_weightSum (m : Libm α) (g : List (Sample α)) (hne : g ≠ [])
    (h : ∀ s ∈ g, 0 ≤ s.confidenceWeight ∧ 0 ≤ s.distance) :
    1 - weightSum m g = eps * invDistSum g / specS g := by
  have hS := specS_pos g hne h
  rw [weightSum_eq, sum_specWeight, eq_div_iff hS.ne', sub_mul, one_mul,
    div_mul_cancel₀ _ hS.ne', specS_eq]
  ring

theorem confSum_scale (k : α) (g : List (Sample α)) :
    confSum (g.map (scaleConfidence k)) = k * confSum g := by
  unfold confSum
  induction g with
  | nil => simp
  | cons s t ih =>
    simp only [List.map_cons, List.sum_cons] at ih ⊢
    rw [ih]
    simp only [scaleConfidence]
    ring

theorem invDistSum_scale (k : α) (g : List (Sample α)) :
    invDistSum (g.map (scaleConfidence k)) = invDistSum g := by
  unfold invDistSum
  induction g with
  | nil => simp
  | cons s t ih =>
    simp only [List.map_cons, List.sum_cons] at ih ⊢
    rw [ih]
    simp only [scaleConfidence]

theorem term_le_confSum (g : List (Sample α))
    (h : ∀ s ∈ g, 0 ≤ s.confidenceWeight ∧ 0 ≤ s.distance) (s : Sample α) (hs : s ∈ g) :
    s.confidenceWeight / (s.distance + eps) ≤ confSum g := by
  have e := eps_pos (α := α)
  unfold confSum
  apply List.single_le_sum
  · intro x hx
    obtain ⟨t, ht, rfl⟩ := List.mem_map.1 hx
    exact div_nonneg (h t ht).1 (by linarith [(h t ht).2])
  · exact List.mem_map.2 ⟨s, hs, rfl⟩

theorem specWeight_scale (k : α) (hk : 0 < k) (g : List (Sample α)) (s : Sample α) :
    specWeight (g.map (scaleConfidence k)) (scaleConfidence k s)
      = s.confidenceWeight / (s.distance + eps) / (confSum g + eps / k * invDistSum g) := by
  unfold specWeight
  rw [specS_eq, confSum_scale, invDistSum_scale]
  have e : k * confSum g + eps * invDistSum g = k * (confSum g + eps / k * invDistSum g) := by
    field_simp
    ring
  rw [e]
  simp only [scaleConfidence]
  rw [mul_div_assoc, mul_div_mul_left _ _ hk.ne']

theorem div_sub_div_same_num (a D E : α) (hD : D ≠ 0) (hE : E ≠ 0) :
    a / E - a / D = a / E * ((D - E) / D) := by
  field_simp
  ring

theorem specS_perm {g g2 : List (Sample α)} (hp : g.Perm g2) : specS g = specS g2 :=
  (hp.map _).sum_eq

theorem specWeight_perm {g g2 : List (Sample α)} (hp : g.Perm g2) :
    specWeight g = specWeight g2 := by
  funext s
  simp only [specWeight, specS_perm hp]

theorem mergeGroup_perm (m : Libm α) {g g2 : List (Sample α)} (hp : g.Perm g2) :
    mergeGroup m g = mergeGroup m g2 := by
  obtain ⟨a1, a2, a3, a4, a5⟩ := mergeGroup_linear m g
  obtain ⟨b1, b2, b3, b4, b5⟩ := mergeGroup_linear m g2
  have hw := specWeight_perm hp
  have e1 : (mergeGroup m g).valuesOutReal = (mergeGroup m g2).valuesOutReal := by
    rw [a1, b1, hw]; exact (hp.map _).sum_eq
  have e2 : (mergeGroup m g).valuesOutComplex = (mergeGroup m g2).valuesOutComplex := by
    rw [a2, b2, hw]; exact (hp.map _).sum_eq
  have hq : weightedPhase m g = weightedPhase m g2 := by
    simp only [weightedPhase, e1, e2]
  apply MergedGridPoint.eq_of_fields
  · rw [a3, b3, hw]; exact (hp.map _).sum_eq
  · exact e1
  · exact e2
  · rw [a4, b4, hw]; exact (hp.map _).sum_eq
  · rw [a5, b5, hw]; exact (hp.map _).sum_eq
  · rw [mergeGroup_sigma, mergeGroup_sigma, hw, hq, (hp.map _).sum_eq,
      (hp.map (fun s => specWeight g2 s)).sum_eq]

theorem phaseResidual_mem (PI p q : α) (hp1 : -PI < p) (hp2 : p ≤ PI) (hq1 : -PI < q)
    (hq2 : q ≤ PI) : 0 ≤ phaseResidual PI p q ∧ phaseResidual PI p q ≤ PI := by
  rw [phaseResidual_eq_min PI p q hp1 hp2 hq1 hq2]
  have habs : |p - q| < 2 * PI := by rw [abs_lt]; constructor <;> linarith
  constructor
  · exact le_min (abs_nonneg _) (by linarith)
  · by_cases h : |p - q| ≤ PI
    · exact le_trans (min_le_left _ _) h
    · exact le_trans (min_le_right _ _) (by linarith)

theorem specWeight_of_conf_zero (g : List (Sample α)) (s : Sample α)
    (hc : s.confidenceWeight = 0) : specWeight g s = 0 := by
  simp [specWeight, hc]

end Lemmas

/-! ## Shared lemmas over the reals: phases and dispersion -/

section RealLemmas

theorem mergeGroup_nil (m : Libm ℝ) (hm : m.IsExact) : mergeGroup m [] = zeroPoint := by
  simp [mergeGroup, weightGroup, zeroPoint, hm.1]

theorem sigma_nonneg (m : Libm ℝ) (hm : m.IsExact) (g : List (Sample ℝ)) :
    0 ≤ (mergeGroup m g).sigmaPhases := by
  rw [mergeGroup_sigma, hm.1]; exact Real.sqrt_nonneg _

theorem tmpPhase_mem (m : Libm ℝ) (hm : m.IsExact) (s : Sample ℝ) :
    -m.PI < tmpPhase m s ∧ tmpPhase m s ≤ m.PI := by
  rw [tmpPhase, hm.2.1, hm.2.2]
  exact ⟨Complex.neg_pi_lt_arg _, Complex.arg_le_pi _⟩

theorem weightedPhase_mem (m : Libm ℝ) (hm : m.IsExact) (g : List (Sample ℝ)) :
    -m.PI < weightedPhase m g ∧ weightedPhase m g ≤ m.PI := by
  rw [weightedPhase, hm.2.1, hm.2.2]
  exact ⟨Complex.neg_pi_lt_arg _, Complex.arg_le_pi _⟩

/-- The dispersion of a group with non-negative data is 0 exactly when every sample of
positive confidence has the representative phase. -/
theorem sigma_eq_zero_iff (m : Libm ℝ) (hm : m.IsExact) (g : List (Sample ℝ)) (hne : g ≠ [])
    (h : ∀ s ∈ g, 0 ≤ s.confidenceWeight ∧ 0 ≤ s.distance) :
    (mergeGroup m g).sigmaPhases = 0 ↔
      ∀ s ∈ g, 0 < s.confidenceWeight → tmpPhase m s = weightedPhase m g := by
  have e := eps_pos (α := ℝ)
  have hw : ∀ s ∈ g, 0 ≤ specWeight g s := specWeight_nonneg g hne h
  have hW : 0 ≤ (g.map fun s => specWeight g s).sum := by
    apply List.sum_nonneg
    intro x hx
    obtain ⟨s, hs, rfl⟩ := List.mem_map.1 hx
    exact hw s hs
  have hterm : ∀ x ∈ (g.map fun s => specWeight g s *
      phaseResidual m.PI (tmpPhase m s) (weightedPhase m g) *
      phaseResidual m.PI (tmpPhase m s) (weightedPhase m g)), 0 ≤ x := by
    intro x hx
    obtain ⟨s, hs, rfl⟩ := List.mem_map.1 hx
    rw [mul_assoc]
    exact mul_nonneg (hw s hs) (mul_self_nonneg _)
  have hA := List.sum_nonneg hterm
  rw [mergeGroup_sigma, hm.1, Real.sqrt_eq_zero (div_nonneg hA (by linarith)),
    div_eq_zero_iff, list_sum_eq_zero_iff _ hterm]
  have hq := weightedPhase_mem m hm g
  constructor
  · rintro (h0 | h0)
    · intro s hs hc
      have hp := tmpPhase_mem m hm s
      have h1 := h0 _ (List.mem_map.2 ⟨s, hs, rfl⟩)
      have hwpos := (specWeight_pos_iff g hne h s hs).2 hc
      rw [mul_assoc] at h1
      rcases mul_eq_zero.1 h1 with h2 | h2
      · linarith
      · exact (phaseResidual_eq_zero_iff m.PI _ _ hp.1 hp.2 hq.1 hq.2).1 (mul_self_eq_zero.1 h2)
    · linarith
  · intro hall
    left
    intro x hx
    obtain ⟨s, hs, rfl⟩ := List.mem_map.1 hx
    rcases (h s hs).1.lt_or_eq with hc | hc
    · have hp := tmpPhase_mem m hm s
      rw [(phaseResidual_eq_zero_iff m.PI _ _ hp.1 hp.2 hq.1 hq.2).2 (hall s hs hc)]
      simp
    · have : specWeight g s = 0 := by simp [specWeight, ← hc]
      rw [this]; simp

theorem arg_polar (R φ : ℝ) (hR : 0 < R) (hφ : -Real.pi < φ ∧ φ ≤ Real.pi) :
    Complex.arg ⟨R * Real.cos φ, R * Real.sin φ⟩ = φ := by
  have h := Complex.arg_mul_cos_add_sin_mul_I hR (Set.mem_Ioc.2 hφ)
  have e : (⟨R * Real.cos φ, R * Real.sin φ⟩ : ℂ)
      = (R : ℂ) * (Complex.cos φ + Complex.sin φ * Complex.I) := by
    apply Complex.ext
    · simp [Complex.cos_ofReal_re, Complex.sin_ofReal_re, Complex.sin_ofReal_im,
        Complex.cos_ofReal_im]
    · simp [Complex.cos_ofReal_re, Complex.sin_ofReal_re, Complex.sin_ofReal_im,
        Complex.cos_ofReal_im]
  rw [e]; exact h

/-- When every sample of positive confidence has phase `φ`, and some sample has positive
confidence, the representative phase is `φ`. -/
theorem weightedPhase_of_common_phase (m : Libm ℝ) (hm : m.IsExact) (g : List (Sample ℝ))
    (hne : g ≠ []) (h : ∀ s ∈ g, 0 ≤ s.confidenceWeight ∧ 0 ≤ s.distance) (φ : ℝ)
    (hφ : ∀ s ∈ g, 0 < s.confidenceWeight → tmpPhase m s = φ)
    (s0 : Sample ℝ) (hs0 : s0 ∈ g) (hc0 : 0 < s0.confidenceWeight) :
    weightedPhase m g = φ := by
  have hw : ∀ s ∈ g, 0 ≤ specWeight g s := specWeight_nonneg g hne h
  have hterm : ∀ x ∈ (g.map fun s : Sample ℝ =>
      specWeight g s * Complex.abs ⟨s.valueReal, s.valueComplex⟩), 0 ≤ x := by
    intro x hx
    obtain ⟨s, hs, rfl⟩ := List.mem_map.1 hx
    exact mul_nonneg (hw s hs) (Complex.abs.nonneg _)
  have hR := List.sum_nonneg hterm
  have hpolar : ∀ s ∈ g, specWeight g s * s.valueReal
        = specWeight g s * Complex.abs ⟨s.valueReal, s.valueComplex⟩ * Real.cos φ ∧
      specWeight g s * s.valueComplex
        = specWeight g s * Complex.abs ⟨s.valueReal, s.valueComplex⟩ * Real.sin φ := by
    intro s hs
    rcases (h s hs).1.lt_or_eq with hc | hc
    · have hp := hφ s hs hc
      rw [tmpPhase, hm.2.1] at hp
      have h1 := Complex.abs_mul_cos_arg (⟨s.valueReal, s.valueComplex⟩ : ℂ)
      have h2 := Complex.abs_mul_sin_arg (⟨s.valueReal, s.valueComplex⟩ : ℂ)
      rw [hp] at h1 h2
      simp only at h1 h2
      constructor
      · rw [mul_assoc, h1]
      · rw [mul_assoc, h2]
    · have : specWeight g s = 0 := by simp [specWeight, ← hc]
      rw [this]; simp
  obtain ⟨h1, h2, -⟩ := mergeGroup_linear m g
  have e1 : (mergeGroup m g).valuesOutReal = (g.map fun s : Sample ℝ =>
      specWeight g s * Complex.abs ⟨s.valueReal, s.valueComplex⟩).sum * Real.cos φ := by
    rw [h1, ← List.sum_map_mul_right]
    exact congrArg List.sum (List.map_congr_left fun s hs => (hpolar s hs).1)
  have e2 : (mergeGroup m g).valuesOutComplex = (g.map fun s : Sample ℝ =>
      specWeight g s * Complex.abs ⟨s.valueReal, s.valueComplex⟩).sum * Real.sin φ := by
    rw [h2, ← List.sum_map_mul_right]
    exact congrArg List.sum (List.map_congr_left fun s hs => (hpolar s hs).2)
  have hp0 := hφ s0 hs0 hc0
  have hmem := tmpPhase_mem m hm s0
  rw [hp0, hm.2.2] at hmem
  rw [weightedPhase, hm.2.1, e1, e2]
  rcases hR.lt_or_eq with hpos | hzero
  · exact arg_polar _ φ hpos hmem
  · rw [← hzero]
    have hz := (list_sum_eq_zero_iff _ hterm).1 hzero.symm _ (List.mem_map.2 ⟨s0, hs0, rfl⟩)
    have hwpos := (specWeight_pos_iff g hne h s0 hs0).2 hc0
    rcases mul_eq_zero.1 hz with h3 | h3
    · linarith
    · have hz0 : (⟨s0.valueReal, s0.valueComplex⟩ : ℂ) = 0 := by
        simpa using h3
      rw [tmpPhase, hm.2.1, hz0, Complex.arg_zero] at hp0
      rw [← hp0]
      simp only [zero_mul]
      exact Complex.arg_zero

theorem specWeight_pair (a b : Sample ℝ) (hd : 0 ≤ a.distance)
    (hab : b.distance = a.distance) (hc : b.confidenceWeight = a.confidenceWeight)
    (hpos : 0 < a.confidenceWeight) :
    specWeight [a, b] a = a.confidenceWeight / (a.confidenceWeight + eps) / 2 ∧
    specWeight [a, b] b = a.confidenceWeight / (a.confidenceWeight + eps) / 2 := by
  have e := eps_pos (α := ℝ)
  have h1 : a.distance + eps ≠ 0 := by linarith
  have h2 : a.confidenceWeight + eps ≠ 0 := by linarith
  have hx : (a.distance + eps) * ((a.confidenceWeight + eps) / (a.distance + eps)
      + (a.confidenceWeight + eps) / (a.distance + eps)) = (a.confidenceWeight + eps) * 2 := by
    field_simp; ring
  simp only [specWeight, specS, List.map_cons, List.map_nil, List.sum_cons, List.sum_nil,
    add_zero, hab, hc]
  constructor <;> rw [div_div, div_div, hx]

theorem sqrt_add_sq_le (x1 y1 x2 y2 : ℝ) :
    Real.sqrt ((x1 + x2) ^ 2 + (y1 + y2) ^ 2)
      ≤ Real.sqrt (x1 ^ 2 + y1 ^ 2) + Real.sqrt (x2 ^ 2 + y2 ^ 2) := by
  have h := Complex.abs.add_le ⟨x1, y1⟩ ⟨x2, y2⟩
  simpa [Complex.abs_apply, Complex.normSq_apply, sq] using h

theorem sqrt_scaled (w r i : ℝ) (hw : 0 ≤ w) :
    Real.sqrt ((w * r) ^ 2 + (w * i) ^ 2) = w * Real.sqrt (r * r + i * i) := by
  have e : (w * r) ^ 2 + (w * i) ^ 2 = w ^ 2 * (r * r + i * i) := by ring
  rw [e, Real.sqrt_mul (sq_nonneg w), Real.sqrt_sq hw]

/-- The triangle inequality for a weighted list of complex values. -/
theorem sqrt_weighted_sum_le (w : Sample ℝ → ℝ) (l : List (Sample ℝ))
    (hw : ∀ s ∈ l, 0 ≤ w s) :
    Real.sqrt ((l.map fun s => w s * s.valueReal).sum ^ 2
        + (l.map fun s => w s * s.valueComplex).sum ^ 2)
      ≤ (l.map fun s => w s *
          Real.sqrt (s.valueReal * s.valueReal + s.valueComplex * s.valueComplex)).sum := by
  induction l with
  | nil => simp
  | cons a t ih =>
    have h1 := ih (fun s hs => hw s (List.mem_cons_of_mem _ hs))
    have h2 := sqrt_add_sq_le (w a * a.valueReal) (w a * a.valueComplex)
      (t.map fun s => w s * s.valueReal).sum (t.map fun s => w s * s.valueComplex).sum
    rw [sqrt_scaled _ _ _ (hw a (List.mem_cons_self _ _))] at h2
    simp only [List.map_cons, List.sum_cons]
    linarith

theorem sigma_lt_pi (m : Libm ℝ) (hm : m.IsExact) (g : List (Sample ℝ))
    (h : ∀ s ∈ g, 0 ≤ s.confidenceWeight ∧ 0 ≤ s.distance) :
    (mergeGroup m g).sigmaPhases < Real.pi := by
  have e := eps_pos (α := ℝ)
  have hpi := Real.pi_pos
  by_cases hne : g = []
  · rw [hne, mergeGroup_nil m hm]; exact hpi
  have hw : ∀ s ∈ g, 0 ≤ specWeight g s := specWeight_nonneg g hne h
  have hW : 0 ≤ (g.map fun s => specWeight g s).sum := by
    apply List.sum_nonneg
    intro x hx
    obtain ⟨s, hs, rfl⟩ := List.mem_map.1 hx
    exact hw s hs
  have hq := weightedPhase_mem m hm g
  have hA : (g.map fun s => specWeight g s *
      phaseResidual m.PI (tmpPhase m s) (weightedPhase m g) *
      phaseResidual m.PI (tmpPhase m s) (weightedPhase m g)).sum
      ≤ (g.map fun s => specWeight g s).sum * (Real.pi * Real.pi) := by
    rw [← List.sum_map_mul_right]
    apply List.sum_le_sum
    intro s hs
    have hp := tmpPhase_mem m hm s
    obtain ⟨r0, r1⟩ := phaseResidual_mem m.PI _ _ hp.1 hp.2 hq.1 hq.2
    have r2 : phaseResidual m.PI (tmpPhase m s) (weightedPhase m g) ≤ Real.pi :=
      le_trans r1 (le_of_eq hm.2.2)
    rw [mul_assoc]
    exact mul_le_mul_of_nonneg_left (mul_le_mul r2 r2 r0 hpi.le) (hw s hs)
  rw [mergeGroup_sigma, hm.1, Real.sqrt_lt' hpi, div_lt_iff₀ (by linarith)]
  have : (g.map fun s => specWeight g s).sum * (Real.pi * Real.pi)
      < Real.pi ^ 2 * ((g.map fun s => specWeight g s).sum + eps) := by
    have : 0 < Real.pi ^ 2 * eps := by positivity
    nlinarith
  linarith

end RealLemmas

/-! ## Shared lemmas: the loops in any arithmetic, and NaN on doubles -/

section ArithLemmas

variable {α : Type}

theorem foldl_accumulateStep_congr [OfScientific α] [Add α] [Mul α] [Div α] (m m2 : Libm α)
    (h : m.sqrt = m2.sqrt) (S : α) (g : List (Sample α)) (o : MergedGridPoint α) :
    g.foldl (accumulateStep m S) o = g.foldl (accumulateStep m2 S) o := by
  have e : accumulateStep m S = accumulateStep m2 S := by
    funext o s
    simp only [accumulateStep, h]
  rw [e]

/-- The five accumulated channels of a merge depend on the library only through `sqrt`. -/
theorem mergeGroup_channels_congr [Zero α] [OfNat α 2] [OfScientific α] [Add α] [Sub α]
    [Mul α] [Div α] [Neg α] [LT α] [DecidableRel fun a b : α => a < b] [FAbs α]
    (m m2 : Libm α) (h : m.sqrt = m2.sqrt) (g : List (Sample α)) :
    (mergeGroup m g).magnitudesOut = (mergeGroup m2 g).magnitudesOut ∧
    (mergeGroup m g).valuesOutReal = (mergeGroup m2 g).valuesOutReal ∧
    (mergeGroup m g).valuesOutComplex = (mergeGroup m2 g).valuesOutComplex ∧
    (mergeGroup m g).weightedConfidenceWeights = (mergeGroup m2 g).weightedConfidenceWeights ∧
    (mergeGroup m g).weightedDistances = (mergeGroup m2 g).weightedDistances := by
  simp only [mergeGroup, weightGroup, foldl_accumulateStep_congr m m2 h, and_self]

theorem foldl_sigmaStep_snd [OfNat α 2] [OfScientific α] [Add α] [Sub α] [Mul α] [Div α]
    [Neg α] [LT α] [DecidableRel fun a b : α => a < b] [FAbs α]
    (m : Libm α) (S q : α) (g : List (Sample α)) (acc : α × α) :
    (g.foldl (sigmaStep m S q) acc).2 = g.foldl (fun b s => b + tmpWeight S s) acc.2 := by
  induction g generalizing acc with
  | nil => rfl
  | cons s t ih => simp only [List.foldl_cons, ih, sigmaStep]

/-- The accumulated `weightSum` does not depend on the library. -/
theorem weightSum_eq_foldl [Zero α] [OfNat α 2] [OfScientific α] [Add α] [Sub α] [Mul α]
    [Div α] [Neg α] [LT α] [DecidableRel fun a b : α => a < b] [FAbs α]
    (m : Libm α) (g : List (Sample α)) :
    weightSum m g = g.foldl (fun b s => b + tmpWeight (distanceSumLoop g) s) 0 := by
  simp only [weightSum, foldl_sigmaStep_snd]

end ArithLemmas

section DblLemmas

/-- The literals of the routine as doubles: `1e-30`, the constant `PI`, and the factor
`2 * PI`. -/
theorem Dbl.literal_bits :
    Dbl.toBits (1e-30) = 0x39B4484BFEEBC2A0 ∧
    Dbl.toBits (3.14159265358979323846) = 0x400921FB54442D18 ∧
    Dbl.toBits (2 * 3.14159265358979323846) = 0x401921FB54442D18 ∧
    Dbl.toBits (1e300) = 0x7E37E43C8800759C := by
  decide!

/-- The rounded operations on known values: `0.1 + 0.2`, `0.1 * 0.1`, `1 / 3`, `sqrt 2`,
`1 + 1e-30` (absorbed), and the subnormal quotient `1e-320 / 3`. -/
theorem Dbl.rounding_bits :
    Dbl.toBits (0.1 + 0.2) = 0x3FD3333333333334 ∧
    Dbl.toBits (0.1 * 0.1) = 0x3F847AE147AE147C ∧
    Dbl.toBits (1 / 3) = 0x3FD5555555555555 ∧
    Dbl.toBits (Dbl.sqrt 2) = 0x3FF6A09E667F3BCD ∧
    (1 : Dbl) + 1e-30 = 1 ∧
    Dbl.toBits (1e-320 / 3) = 0x2A3 := by
  decide!

/-- The exceptional results: underflow to 0, overflow to `+∞`, `0 / 0`, `∞ - ∞` and
`0 * ∞` are NaN, `1 / -0 = -∞`, `+0 + -0 = +0`, and NaN compares false. -/
theorem Dbl.exceptional_values :
    (1e-30 : Dbl) / 1e300 = 0 ∧
    (1e300 : Dbl) * 1e300 = Dbl.inf false ∧
    (0 : Dbl) / 0 = Dbl.nan ∧
    Dbl.inf false - Dbl.inf false = Dbl.nan ∧
    (0 : Dbl) * Dbl.inf false = Dbl.nan ∧
    (1 : Dbl) / -0 = Dbl.inf true ∧
    (0 : Dbl) + -0 = Dbl.fin false 0 ∧
    ¬ (Dbl.nan < (1 : Dbl)) ∧ ¬ ((1 : Dbl) < Dbl.nan) ∧ ¬ (Dbl.nan ≤ Dbl.nan) := by
  decide!

theorem Dbl.nan_mul (x : Dbl) : Dbl.nan * x = Dbl.nan := by
  cases x <;> rfl

theorem Dbl.nan_div (x : Dbl) : Dbl.nan / x = Dbl.nan := by
  cases x <;> rfl

theorem Dbl.nan_add (x : Dbl) : Dbl.nan + x = Dbl.nan := by
  cases x <;> rfl

theorem Dbl.add_nan (x : Dbl) : x + Dbl.nan = Dbl.nan := by
  cases x <;> rfl

theorem Dbl.sqrt_nan : Dbl.sqrt Dbl.nan = Dbl.nan := rfl

theorem Dbl.not_lt_self (x : Dbl) : ¬ x < x := by
  cases x with
  | nan => decide
  | inf s => cases s <;> decide
  | fin s m =>
    cases s
    · show ¬ (decide (m < m) = true)
      simp
    · show ¬ (decide (m < m) = true)
      simp

theorem foldl_sigmaStep_nan (m : Libm Dbl) (S q : Dbl) (t : List (Sample Dbl)) :
    t.foldl (sigmaStep m S q) (Dbl.nan, Dbl.nan) = (Dbl.nan, Dbl.nan) := by
  induction t with
  | nil => rfl
  | cons s t ih => simp only [List.foldl_cons, sigmaStep, Dbl.nan_add, ih]

/-- On doubles a group whose first weight is NaN has dispersion NaN, whatever `atan2`
returns. -/
theorem sigma_nan_of_weight_nan (a : Dbl → Dbl → Dbl) (s : Sample Dbl) (t : List (Sample Dbl))
    (hw : tmpWeight (distanceSumLoop (s :: t)) s = Dbl.nan) :
    (mergeGroup (dblLibm a) (s :: t)).sigmaPhases = Dbl.nan := by
  simp only [mergeGroup, weightGroup, List.foldl_cons, sigmaStep, hw, Dbl.nan_mul,
    Dbl.add_nan, foldl_sigmaStep_nan, Dbl.nan_div]
  rfl

/-- On doubles, with an `atan2` that follows Annex F of the C standard at the two zero
arguments (`atan2(+0, -0) = π`, `atan2(+0, +0) = +0`), the lone sample `(-0, 0, 2, 1)` has
dispersion equal to the constant `PI`. -/
theorem sigma_negzero (a : Dbl → Dbl → Dbl) (h1 : a 0 (-0) = 3.14159265358979323846)
    (h2 : a 0 0 = 0) :
    (mergeGroup (dblLibm a) [⟨-0, 0, 2, 1⟩]).sigmaPhases = 3.14159265358979323846 := by
  have hw : tmpWeight (distanceSumLoop ([⟨-0, 0, 2, 1⟩] : List (Sample Dbl))) ⟨-0, 0, 2, 1⟩
      = 1 := by decide!
  have e1 : (0 : Dbl) + 1 * 0 = 0 := by decide!
  have e2 : (0 : Dbl) + 1 * -0 = 0 := by decide!
  simp only [mergeGroup, weightGroup, List.foldl, sigmaStep, accumulateStep, zeroPoint, hw,
    dblLibm, e1, e2, h1, h2]
  decide!

/-- On doubles, with an `atan2` that follows Annex F at `(+0, 1)` and `(+0, -1)`, the group
`(1, 0, 0, 1), (-1, 0, 0, 0)` has weights `1` and `0` and dispersion 0. -/
theorem sigma_zero_conf_pair (a : Dbl → Dbl → Dbl) (h1 : a 0 1 = 0)
    (h2 : a 0 (-1) = 3.14159265358979323846) :
    (mergeGroup (dblLibm a) [⟨1, 0, 0, 1⟩, ⟨-1, 0, 0, 0⟩]).sigmaPhases = 0 := by
  have hw1 : tmpWeight (distanceSumLoop ([⟨1, 0, 0, 1⟩, ⟨-1, 0, 0, 0⟩] : List (Sample Dbl)))
      ⟨1, 0, 0, 1⟩ = 1 := by decide!
  have hw2 : tmpWeight (distanceSumLoop ([⟨1, 0, 0, 1⟩, ⟨-1, 0, 0, 0⟩] : List (Sample Dbl)))
      ⟨-1, 0, 0, 0⟩ = 0 := by decide!
  have e1 : (0 : Dbl) + 1 * 1 + 0 * -1 = 1 := by decide!
  have e2 : (0 : Dbl) + 1 * 0 + 0 * 0 = 0 := by decide!
  simp only [mergeGroup, weightGroup, List.foldl, sigmaStep, accumulateStep, zeroPoint, hw1,
    hw2, dblLibm, e1, e2, h1, h2]
  decide!

/-- On doubles, with an `atan2` that returns the correctly rounded values at the three
calls made, the coherent group `(3, 4, 0.5, 1), (15, 20, 2, 3)` has dispersion `2⁻⁵³`: the
representative phase is one unit in the last place above the common phase of the samples. -/
theorem sigma_coherent_rounding (a : Dbl → Dbl → Dbl)
    (h1 : a 4 3 = Dbl.ofBits 0x3FEDAC670561BB4F)
    (h2 : a 20 15 = Dbl.ofBits 0x3FEDAC670561BB4F)
    (h3 : a (Dbl.ofBits 0x4025B6DB6DB6DB6E) (Dbl.ofBits 0x4020492492492492)
      = Dbl.ofBits 0x3FEDAC670561BB50) :
    (mergeGroup (dblLibm a) [⟨3, 4, 0.5, 1⟩, ⟨15, 20, 2, 3⟩]).sigmaPhases
      = Dbl.ofBits 0x3CA0000000000000 := by
  have hw1 : tmpWeight (distanceSumLoop ([⟨3, 4, 0.5, 1⟩, ⟨15, 20, 2, 3⟩] : List (Sample Dbl)))
      ⟨3, 4, 0.5, 1⟩ = Dbl.ofBits 0x3FE2492492492492 := by decide!
  have hw2 : tmpWeight (distanceSumLoop ([⟨3, 4, 0.5, 1⟩, ⟨15, 20, 2, 3⟩] : List (Sample Dbl)))
      ⟨15, 20, 2, 3⟩ = Dbl.ofBits 0x3FDB6DB6DB6DB6DB := by decide!
  have e1 : (0 : Dbl) + Dbl.ofBits 0x3FE2492492492492 * 3 + Dbl.ofBits 0x3FDB6DB6DB6DB6DB * 15
      = Dbl.ofBits 0x4020492492492492 := by decide!
  have e2 : (0 : Dbl) + Dbl.ofBits 0x3FE2492492492492 * 4 + Dbl.ofBits 0x3FDB6DB6DB6DB6DB * 20
      = Dbl.ofBits 0x4025B6DB6DB6DB6E := by decide!
  simp only [mergeGroup, weightGroup, List.foldl, sigmaStep, accumulateStep, zeroPoint, hw1,
    hw2, dblLibm, e1, e2, h1, h2, h3]
  decide!

end DblLemmas

/-! ## Shared lemmas: signs and finite values on doubles -/

section DblSign

variable {α : Type}

theorem Dbl.zero_eq : (0 : Dbl) = Dbl.fin false 0 := by decide!

theorem Dbl.ite_inf_fin (c : Prop) [Decidable c] (s : Bool) (k : Nat) (P : Nat → Prop)
    (h : P k) : (if c then Dbl.inf s else Dbl.fin s k) = Dbl.inf s ∨
      ∃ j, P j ∧ (if c then Dbl.inf s else Dbl.fin s k) = Dbl.fin s j := by
  by_cases hc : c
  · exact Or.inl (if_pos hc)
  · exact Or.inr ⟨k, h, if_neg hc⟩

theorem Dbl.ite_inf_fin_cases (c : Prop) [Decidable c] (s : Bool) (k : Nat) :
    (if c then Dbl.inf s else Dbl.fin s k) = Dbl.inf s ∨
      ∃ j, (if c then Dbl.inf s else Dbl.fin s k) = Dbl.fin s j := by
  by_cases hc : c
  · exact Or.inl (if_pos hc)
  · exact Or.inr ⟨k, if_neg hc⟩

theorem Dbl.roundUnits_cases (s : Bool) (N D : Nat) :
    Dbl.roundUnits s N D = Dbl.inf s ∨ ∃ k, Dbl.roundUnits s N D = Dbl.fin s k := by
  unfold Dbl.roundUnits
  dsimp only
  exact Dbl.ite_inf_fin_cases _ _ _

theorem Dbl.bitLength_zero : Dbl.bitLength 0 = 0 := by decide!

theorem Dbl.roundUnits_zero (s : Bool) (D : Nat) : Dbl.roundUnits s 0 D = Dbl.fin s 0 := by
  unfold Dbl.roundUnits
  simp [Dbl.bitLength_zero]

theorem Dbl.bitLengthAux_le (n : Nat) : ∀ fuel lo : Nat, (lo = 0 ∨ 2 ^ (lo - 1) ≤ n) →
    (Dbl.bitLengthAux n fuel lo = 0 ∨ 2 ^ (Dbl.bitLengthAux n fuel lo - 1) ≤ n) := by
  intro fuel
  induction fuel with
  | zero => intro lo h; exact h
  | succ f ih =>
    intro lo h
    unfold Dbl.bitLengthAux
    split
    · exact ih lo h
    · rename_i hlt
      apply ih
      right
      rw [Nat.one_shiftLeft, Nat.one_shiftLeft] at hlt
      rw [Nat.one_shiftLeft]
      exact Nat.le_of_not_lt hlt

theorem Dbl.bitLength_le (n : Nat) (h : 0 < n) : 2 ^ (Dbl.bitLength n - 53) ≤ n := by
  rcases Dbl.bitLengthAux_le n 16 0 (Or.inl rfl) with h0 | h1
  · unfold Dbl.bitLength
    rw [h0]
    simpa using h
  · unfold Dbl.bitLength
    exact le_trans (Nat.pow_le_pow_right (by norm_num) (by omega)) h1

theorem Dbl.roundUnits_pos (s : Bool) (N : Nat) (h : 0 < N) :
    Dbl.roundUnits s N 1 = Dbl.inf s ∨ ∃ k, 0 < k ∧ Dbl.roundUnits s N 1 = Dbl.fin s k := by
  unfold Dbl.roundUnits
  dsimp only
  apply Dbl.ite_inf_fin _ s _ (fun k => 0 < k)
  have hb := Dbl.bitLength_le N h
  rw [Nat.div_one, Nat.one_shiftLeft]
  set t := Dbl.bitLength N - 53
  have hq : 0 < N / 2 ^ t := Nat.div_pos hb (by positivity)
  rw [Nat.shiftLeft_eq]
  apply Nat.mul_pos _ (by positivity)
  split <;> omega


theorem Dbl.eps_eq : (eps : Dbl) = Dbl.fin false (0x14484bfeebc2a0 <<< 922) := by decide!

theorem Dbl.add_def (x y : Dbl) : x + y = Dbl.add x y := rfl

theorem Dbl.div_def (x y : Dbl) : x / y = Dbl.div x y := rfl

theorem Dbl.mul_def (x y : Dbl) : x * y = Dbl.mul x y := rfl

theorem Dbl.le_def (x y : Dbl) : x ≤ y ↔ Dbl.ble x y = true := Iff.rfl

theorem Dbl.lt_def (x y : Dbl) : x < y ↔ Dbl.blt x y = true := Iff.rfl

theorem Dbl.signClear_roundUnits (N D : Nat) : (Dbl.roundUnits false N D).signClear = true := by
  rcases Dbl.roundUnits_cases false N D with h | ⟨k, h⟩ <;> rw [h] <;> rfl

theorem Dbl.notNeg_of_signClear (x : Dbl) (h : x.signClear = true) : x.notNeg = true := by
  cases x with
  | nan => rfl
  | inf s => exact h
  | fin s m => cases s <;> simp_all [Dbl.signClear, Dbl.notNeg]

theorem Dbl.notNeg_iff (x : Dbl) : x.notNeg = true ↔ (x = Dbl.nan ∨ 0 ≤ x) := by
  rw [Dbl.le_def, Dbl.zero_eq]
  cases x with
  | nan => simp [Dbl.notNeg]
  | inf s => cases s <;> simp [Dbl.notNeg, Dbl.ble]
  | fin s m => cases s <;> simp [Dbl.notNeg, Dbl.ble]

theorem Dbl.signClear_add (x y : Dbl) (hx : x.signClear = true) (hy : y.notNeg = true) :
    (x + y).signClear = true := by
  rw [Dbl.add_def]
  cases x with
  | nan => cases y <;> rfl
  | inf a =>
    cases y with
    | nan => rfl
    | inf b => cases a <;> cases b <;> simp_all [Dbl.signClear, Dbl.notNeg, Dbl.add]
    | fin b n => cases a <;> simp_all [Dbl.signClear, Dbl.add]
  | fin a m =>
    cases y with
    | nan => rfl
    | inf b => cases b <;> simp_all [Dbl.signClear, Dbl.notNeg, Dbl.add]
    | fin b n =>
      have ha : a = false := by simpa [Dbl.signClear] using hx
      subst ha
      cases b with
      | false =>
        simp only [Dbl.add, if_true]
        exact Dbl.signClear_roundUnits _ _
      | true =>
        have hn : n = 0 := by simpa [Dbl.notNeg] using hy
        subst hn
        simp only [Dbl.add]
        by_cases hm : m = 0
        · simp [hm, Dbl.signClear]
        · have : 0 < m := Nat.pos_of_ne_zero hm
          simp [hm, this, Dbl.signClear_roundUnits]

theorem Dbl.signClear_div (x y : Dbl) (hx : x.signClear = true) (hy : y.signClear = true) :
    (x / y).signClear = true := by
  rw [Dbl.div_def]
  cases x with
  | nan => cases y <;> rfl
  | inf a =>
    cases y with
    | nan => rfl
    | inf b => rfl
    | fin b n => cases a <;> cases b <;> simp_all [Dbl.signClear, Dbl.div]
  | fin a m =>
    cases y with
    | nan => rfl
    | inf b => cases a <;> cases b <;> simp_all [Dbl.signClear, Dbl.div]
    | fin b n =>
      have ha : a = false := by simpa [Dbl.signClear] using hx
      have hb : b = false := by simpa [Dbl.signClear] using hy
      subst ha hb
      simp only [Dbl.div]
      split_ifs <;> first | rfl | exact Dbl.signClear_roundUnits _ _

theorem Dbl.notNeg_div (x y : Dbl) (hx : x.notNeg = true) (hy : y.signClear = true) :
    (x / y).notNeg = true := by
  cases x with
  | nan => exact Dbl.notNeg_of_signClear _ (Dbl.signClear_div _ _ rfl hy)
  | inf a => exact Dbl.notNeg_of_signClear _ (Dbl.signClear_div _ _ hx hy)
  | fin a m =>
    cases a with
    | false => exact Dbl.notNeg_of_signClear _ (Dbl.signClear_div _ _ rfl hy)
    | true =>
      have hm : m = 0 := by simpa [Dbl.notNeg] using hx
      subst hm
      rw [Dbl.div_def]
      cases y with
      | nan => rfl
      | inf b => cases b <;> simp_all [Dbl.signClear, Dbl.notNeg, Dbl.div]
      | fin b n =>
        have hb : b = false := by simpa [Dbl.signClear] using hy
        subst hb
        simp only [Dbl.div]
        split_ifs
        · rfl
        · simp [Dbl.roundUnits_zero, Dbl.notNeg]

/-- On doubles `x + 1e-30` is strictly positive for every `x ≥ 0`. -/
theorem Dbl.add_eps_pos (x : Dbl) (hx : 0 ≤ x) : 0 < x + eps := by
  rw [Dbl.lt_def, Dbl.zero_eq, Dbl.eps_eq, Dbl.add_def]
  rw [Dbl.le_def, Dbl.zero_eq] at hx
  have hE : 0 < 0x14484bfeebc2a0 <<< 922 := by decide!
  cases x with
  | nan => simp [Dbl.ble] at hx
  | inf a => cases a <;> simp_all [Dbl.ble, Dbl.add, Dbl.blt]
  | fin a m =>
    cases a with
    | false =>
      simp only [Dbl.add, if_true]
      rcases Dbl.roundUnits_pos false (m + 0x14484bfeebc2a0 <<< 922) (by omega) with h | ⟨k, hk, h⟩
      · rw [h]; rfl
      · rw [h]; simpa [Dbl.blt] using hk
    | true =>
      have hm : m = 0 := by simpa [Dbl.ble] using hx
      subst hm
      simp only [Dbl.add]
      rw [if_neg (by decide), if_neg (by omega), if_neg (by omega)]
      rcases Dbl.roundUnits_pos false (0x14484bfeebc2a0 <<< 922 - 0) (by omega) with h | ⟨k, hk, h⟩
      · rw [h]; rfl
      · rw [h]; simpa [Dbl.blt] using hk

theorem Dbl.signClear_of_pos (x : Dbl) (h : 0 < x) : x.signClear = true := by
  rw [Dbl.lt_def, Dbl.zero_eq] at h
  cases x with
  | nan => rfl
  | inf a => cases a <;> simp_all [Dbl.blt, Dbl.signClear]
  | fin a m => cases a <;> simp_all [Dbl.blt, Dbl.signClear]

theorem Dbl.notNeg_of_nonneg (x : Dbl) (h : 0 ≤ x) : x.notNeg = true :=
  (Dbl.notNeg_iff x).2 (Or.inr h)


theorem Dbl.nonneg_of_signClear (x : Dbl) (h : x.signClear = true) (hn : x ≠ Dbl.nan) :
    0 ≤ x := by
  rcases (Dbl.notNeg_iff x).1 (Dbl.notNeg_of_signClear x h) with h1 | h1
  · exact absurd h1 hn
  · exact h1

/-- On doubles `x + 1e-30` is NaN or strictly positive when the sign bit of `x` is clear. -/
theorem Dbl.signClear_add_eps (x : Dbl) (h : x.signClear = true) :
    x + eps = Dbl.nan ∨ 0 < x + eps := by
  by_cases hn : x = Dbl.nan
  · left; rw [hn]; exact Dbl.nan_add _
  · exact Or.inr (Dbl.add_eps_pos x (Dbl.nonneg_of_signClear x h hn))

theorem Dbl.signClear_distanceSumStep (acc : Dbl) (s : Sample Dbl)
    (hacc : acc.signClear = true) (hc : 0 ≤ s.confidenceWeight) (hd : 0 ≤ s.distance) :
    (distanceSumStep acc s).signClear = true :=
  Dbl.signClear_add _ _ hacc (Dbl.notNeg_of_signClear _ (Dbl.signClear_div _ _
    (Dbl.signClear_of_pos _ (Dbl.add_eps_pos _ hc))
    (Dbl.signClear_of_pos _ (Dbl.add_eps_pos _ hd))))

theorem Dbl.signClear_foldl_distanceSumStep (g : List (Sample Dbl)) (acc : Dbl)
    (hacc : acc.signClear = true)
    (h : ∀ s ∈ g, 0 ≤ s.confidenceWeight ∧ 0 ≤ s.distance) :
    (g.foldl distanceSumStep acc).signClear = true := by
  induction g generalizing acc with
  | nil => exact hacc
  | cons s t ih =>
    rw [List.foldl_cons]
    exact ih _ (Dbl.signClear_distanceSumStep acc s hacc (h s (List.mem_cons_self _ _)).1
      (h s (List.mem_cons_self _ _)).2) fun u hu => h u (List.mem_cons_of_mem _ hu)

/-- On doubles the normalisation sum of a group with confidences and distances `≥ 0` has a
clear sign bit: it is `+0`, positive, `+∞` or NaN. -/
theorem Dbl.signClear_distanceSumLoop (g : List (Sample Dbl))
    (h : ∀ s ∈ g, 0 ≤ s.confidenceWeight ∧ 0 ≤ s.distance) :
    (distanceSumLoop g).signClear = true :=
  Dbl.signClear_foldl_distanceSumStep g _ rfl h

/-- On doubles a weight taken against a sum with clear sign bit is NaN or `≥ 0`. -/
theorem Dbl.notNeg_tmpWeight (S : Dbl) (s : Sample Dbl) (hS : S.signClear = true)
    (hc : 0 ≤ s.confidenceWeight) (hd : 0 ≤ s.distance) : (tmpWeight S s).notNeg = true :=
  Dbl.notNeg_div _ _ (Dbl.notNeg_div _ _ (Dbl.notNeg_of_nonneg _ hc)
    (Dbl.signClear_of_pos _ (Dbl.add_eps_pos _ hd))) hS

theorem Dbl.signClear_foldl_weight (S : Dbl) (g : List (Sample Dbl)) (acc : Dbl)
    (hacc : acc.signClear = true) (hS : S.signClear = true)
    (h : ∀ s ∈ g, 0 ≤ s.confidenceWeight ∧ 0 ≤ s.distance) :
    (g.foldl (fun b s => b + tmpWeight S s) acc).signClear = true := by
  induction g generalizing acc with
  | nil => exact hacc
  | cons s t ih =>
    rw [List.foldl_cons]
    exact ih _ (Dbl.signClear_add _ _ hacc (Dbl.notNeg_tmpWeight S s hS
      (h s (List.mem_cons_self _ _)).1 (h s (List.mem_cons_self _ _)).2))
      fun u hu => h u (List.mem_cons_of_mem _ hu)

/-- On doubles the accumulated `weightSum` of a group with confidences and distances `≥ 0`
has a clear sign bit, whatever `sqrt` and `atan2` return. -/
theorem Dbl.signClear_weightSum (m : Libm Dbl) (g : List (Sample Dbl))
    (h : ∀ s ∈ g, 0 ≤ s.confidenceWeight ∧ 0 ≤ s.distance) :
    (weightSum m g).signClear = true := by
  rw [weightSum_eq_foldl]
  exact Dbl.signClear_foldl_weight _ g _ rfl (Dbl.signClear_distanceSumLoop g h) h

/-- The correctly rounded square root of a double is NaN or `≥ 0`. -/
theorem Dbl.sqrt_notNeg (x : Dbl) : (Dbl.sqrt x).notNeg = true := by
  cases x with
  | nan => rfl
  | inf s => cases s <;> rfl
  | fin s m =>
    simp only [Dbl.sqrt]
    by_cases h1 : m = 0
    · simp [h1, Dbl.notNeg]
    · rw [if_neg h1]
      cases s with
      | true => rfl
      | false => exact Dbl.notNeg_of_signClear _ (Dbl.signClear_roundUnits _ _)

/-- On doubles the dispersion output is NaN or `≥ 0` for every group and every `atan2`. -/
theorem Dbl.sigma_notNeg (a : Dbl → Dbl → Dbl) (g : List (Sample Dbl)) :
    (mergeGroup (dblLibm a) g).sigmaPhases = Dbl.nan ∨
      0 ≤ (mergeGroup (dblLibm a) g).sigmaPhases :=
  (Dbl.notNeg_iff _).1 (Dbl.sqrt_notNeg _)


theorem Dbl.ne_nan_of_isFinite (x : Dbl) (h : x.isFinite = true) : x ≠ Dbl.nan := by
  cases x <;> simp_all [Dbl.isFinite]

theorem Dbl.roundUnits_ne_nan (s : Bool) (N D : Nat) : Dbl.roundUnits s N D ≠ Dbl.nan := by
  rcases Dbl.roundUnits_cases s N D with h | ⟨k, h⟩ <;> rw [h] <;> simp

theorem Dbl.add_ne_nan (x y : Dbl) (hx : x ≠ Dbl.nan) (hy : y.isFinite = true) :
    x + y ≠ Dbl.nan := by
  rw [Dbl.add_def]
  cases y with
  | nan => simp [Dbl.isFinite] at hy
  | inf b => simp [Dbl.isFinite] at hy
  | fin b n =>
    cases x with
    | nan => exact absurd rfl hx
    | inf a => simp [Dbl.add]
    | fin a m =>
      simp only [Dbl.add]
      split_ifs <;> first | exact Dbl.roundUnits_ne_nan _ _ _ | simp

theorem Dbl.neg_isFinite (x : Dbl) (h : x.isFinite = true) : (-x).isFinite = true := by
  cases x with
  | nan => exact h
  | inf b => exact h
  | fin a m => rfl

theorem Dbl.sub_ne_nan (x y : Dbl) (hx : x ≠ Dbl.nan) (hy : y.isFinite = true) :
    x - y ≠ Dbl.nan :=
  Dbl.add_ne_nan x (-y) hx (Dbl.neg_isFinite y hy)

theorem Dbl.sub_self (x : Dbl) (h : x.isFinite = true) : x - x = Dbl.fin false 0 := by
  cases x with
  | nan => simp [Dbl.isFinite] at h
  | inf b => simp [Dbl.isFinite] at h
  | fin a m =>
    show Dbl.add (Dbl.fin a m) (Dbl.neg (Dbl.fin a m)) = _
    cases a <;> simp [Dbl.neg, Dbl.add]

theorem Dbl.abs_cases (x : Dbl) (hx : x ≠ Dbl.nan) :
    Dbl.abs x = Dbl.inf false ∨ ∃ k, Dbl.abs x = Dbl.fin false k := by
  cases x with
  | nan => exact absurd rfl hx
  | inf a => exact Or.inl rfl
  | fin a m => exact Or.inr ⟨m, rfl⟩

theorem Dbl.ite_zero_lt (r : Dbl) (h : r = Dbl.inf false ∨ ∃ k, r = Dbl.fin false k) :
    (if Dbl.fin false 0 < r then Dbl.fin false 0 else r) = Dbl.fin false 0 := by
  rcases h with rfl | ⟨k, rfl⟩
  · rw [if_pos]; rfl
  · by_cases hk : 0 < k
    · rw [if_pos]
      show Dbl.blt _ _ = true
      simpa [Dbl.blt] using hk
    · have : k = 0 := by omega
      subst this
      rw [if_neg]
      show ¬ Dbl.blt _ _ = true
      simp [Dbl.blt]

/-- On doubles the residual of a finite phase against itself is `+0`. -/
theorem Dbl.phaseResidual_finite_self (PI p : Dbl) (hPI : (2 * PI).isFinite = true)
    (hp : p.isFinite = true) : phaseResidual PI p p = Dbl.fin false 0 := by
  unfold phaseResidual
  simp only [gt_iff_lt, if_neg (Dbl.not_lt_self p)]
  have e1 : FAbs.fabs (p - p) = Dbl.fin false 0 := by
    rw [Dbl.sub_self p hp]; rfl
  rw [e1]
  exact Dbl.ite_zero_lt _ (Dbl.abs_cases _
    (Dbl.sub_ne_nan _ _ (Dbl.add_ne_nan _ _ (Dbl.ne_nan_of_isFinite p hp) hPI) hp))

theorem Dbl.mul_zero_of_isFinite (x : Dbl) (h : x.isFinite = true) :
    ∃ s, x * Dbl.fin false 0 = Dbl.fin s 0 := by
  cases x with
  | nan => simp [Dbl.isFinite] at h
  | inf b => simp [Dbl.isFinite] at h
  | fin a m => exact ⟨a != false, by rw [Dbl.mul_def]; simp [Dbl.mul, Dbl.roundUnits_zero]⟩

theorem Dbl.zero_mul_of_isFinite (x : Dbl) (h : x.isFinite = true) :
    ∃ s, Dbl.fin false 0 * x = Dbl.fin s 0 := by
  cases x with
  | nan => simp [Dbl.isFinite] at h
  | inf b => simp [Dbl.isFinite] at h
  | fin a m => exact ⟨false != a, by rw [Dbl.mul_def]; simp [Dbl.mul, Dbl.roundUnits_zero]⟩

theorem Dbl.zero_add_signed_zero (s : Bool) :
    Dbl.fin false 0 + Dbl.fin s 0 = Dbl.fin false 0 := by
  cases s <;> decide!

theorem Dbl.signed_zero_mul_zero (s : Bool) :
    ∃ t, Dbl.fin s 0 * Dbl.fin false 0 = Dbl.fin t 0 :=
  Dbl.mul_zero_of_isFinite _ rfl

/-- On doubles `+0 / y` is `+0` for every `y > 0`, also for `y = +∞`. -/
theorem Dbl.zero_div_pos (y : Dbl) (hy : 0 < y) : Dbl.fin false 0 / y = Dbl.fin false 0 := by
  rw [Dbl.lt_def, Dbl.zero_eq] at hy
  rw [Dbl.div_def]
  cases y with
  | nan => simp [Dbl.blt] at hy
  | inf b => cases b <;> simp_all [Dbl.blt, Dbl.div]
  | fin b n =>
    cases b with
    | true => simp [Dbl.blt] at hy
    | false =>
      have hn : n ≠ 0 := by
        have : 0 < n := by simpa [Dbl.blt] using hy
        omega
      simp [Dbl.div, hn, Dbl.roundUnits_zero]

theorem Dbl.nonneg_add (x y : Dbl) (hx : 0 ≤ x) (hy : 0 ≤ y) : 0 ≤ x + y := by
  rw [Dbl.le_def, Dbl.zero_eq] at *
  rw [Dbl.add_def]
  cases x with
  | nan => simp [Dbl.ble] at hx
  | inf a =>
    cases y with
    | nan => simp [Dbl.ble] at hy
    | inf b => cases a <;> cases b <;> simp_all [Dbl.ble, Dbl.add]
    | fin b n => cases a <;> simp_all [Dbl.ble, Dbl.add]
  | fin a m =>
    cases y with
    | nan => simp [Dbl.ble] at hy
    | inf b => cases b <;> simp_all [Dbl.ble, Dbl.add]
    | fin b n =>
      have key : ∀ N, Dbl.ble (Dbl.fin false 0) (Dbl.roundUnits false N 1) = true := by
        intro N
        rcases Dbl.roundUnits_cases false N 1 with h | ⟨k, h⟩ <;> rw [h] <;> simp [Dbl.ble]
      cases a with
      | false =>
        cases b with
        | false => simp only [Dbl.add, if_true]; exact key _
        | true =>
          have hn : n = 0 := by simpa [Dbl.ble] using hy
          subst hn
          simp only [Dbl.add]
          by_cases hm : m = 0
          · simp [hm, Dbl.ble]
          · have : 0 < m := Nat.pos_of_ne_zero hm
            simp [hm, this, key]
      | true =>
        have hm : m = 0 := by simpa [Dbl.ble] using hx
        subst hm
        cases b with
        | false =>
          simp only [Dbl.add]
          by_cases hn : n = 0
          · simp [hn, Dbl.ble]
          · have h1 : ¬ (0 = n) := fun h => hn h.symm
            simp [h1, key]
        | true =>
          have hn : n = 0 := by simpa [Dbl.ble] using hy
          subst hn
          decide!

theorem Dbl.nonneg_of_notNeg_isFinite (x : Dbl) (h : x.notNeg = true)
    (hf : x.isFinite = true) : 0 ≤ x := by
  rcases (Dbl.notNeg_iff x).1 h with h1 | h1
  · exact absurd h1 (Dbl.ne_nan_of_isFinite x hf)
  · exact h1


theorem Dbl.signed_zero_mul (t : Bool) (x : Dbl) (h : x.isFinite = true) :
    ∃ u, Dbl.fin t 0 * x = Dbl.fin u 0 := by
  cases x with
  | nan => simp [Dbl.isFinite] at h
  | inf b => simp [Dbl.isFinite] at h
  | fin a m => exact ⟨t != a, by rw [Dbl.mul_def]; simp [Dbl.mul, Dbl.roundUnits_zero]⟩

/-- On doubles `+0 + +0 * x` is `+0` for every finite `x`. -/
theorem Dbl.zero_add_zero_mul (x : Dbl) (h : x.isFinite = true) :
    Dbl.fin false 0 + Dbl.fin false 0 * x = Dbl.fin false 0 := by
  obtain ⟨s, hs⟩ := Dbl.zero_mul_of_isFinite x h
  rw [hs, Dbl.zero_add_signed_zero]

/-- On doubles `+0 + +0 * x * x` is `+0` for every finite `x`. -/
theorem Dbl.zero_add_zero_mul_mul (x : Dbl) (h : x.isFinite = true) :
    Dbl.fin false 0 + Dbl.fin false 0 * x * x = Dbl.fin false 0 := by
  obtain ⟨s, hs⟩ := Dbl.zero_mul_of_isFinite x h
  obtain ⟨u, hu⟩ := Dbl.signed_zero_mul s x h
  rw [hs, hu, Dbl.zero_add_signed_zero]

/-- On doubles `+0 + w * +0 * +0` is `+0` for every finite `w`. -/
theorem Dbl.zero_add_mul_zero_zero (w : Dbl) (h : w.isFinite = true) :
    Dbl.fin false 0 + w * Dbl.fin false 0 * Dbl.fin false 0 = Dbl.fin false 0 := by
  obtain ⟨s, hs⟩ := Dbl.mul_zero_of_isFinite w h
  obtain ⟨u, hu⟩ := Dbl.signed_zero_mul_zero s
  rw [hs, hu, Dbl.zero_add_signed_zero]

theorem mergeGroup_sigma_eq [Zero α] [OfNat α 2] [OfScientific α] [Add α] [Sub α] [Mul α]
    [Div α] [Neg α] [LT α] [DecidableRel fun a b : α => a < b] [FAbs α]
    (m : Libm α) (g : List (Sample α)) :
    (mergeGroup m g).sigmaPhases = m.sqrt
      ((g.foldl (sigmaStep m (distanceSumLoop g) (weightedPhase m g)) (0, 0)).1
        / (weightSum m g + eps)) := rfl

/-- On doubles, a weight against a positive normalisation sum is `+0` when the confidence
is `+0` and the distance is `≥ 0`. -/
theorem Dbl.tmpWeight_zero (S : Dbl) (s : Sample Dbl) (hS : 0 < S) (hd : 0 ≤ s.distance)
    (hc : s.confidenceWeight = 0) : tmpWeight S s = Dbl.fin false 0 := by
  unfold tmpWeight
  rw [hc, Dbl.zero_eq, Dbl.zero_div_pos _ (Dbl.add_eps_pos _ hd), Dbl.zero_div_pos _ hS]

theorem Dbl.foldl_sigmaStep_coherent (a : Dbl → Dbl → Dbl) (S p : Dbl)
    (hp : p.isFinite = true) (g : List (Sample Dbl)) (acc : Dbl × Dbl)
    (hw : ∀ s ∈ g, (tmpWeight S s).isFinite = true)
    (hsame : ∀ s ∈ g, a s.valueComplex s.valueReal = p) (h1 : acc.1 = Dbl.fin false 0) :
    (g.foldl (sigmaStep (dblLibm a) S p) acc).1 = Dbl.fin false 0 := by
  induction g generalizing acc with
  | nil => exact h1
  | cons s t ih =>
    rw [List.foldl_cons]
    apply ih _ (fun u hu => hw u (List.mem_cons_of_mem _ hu))
      (fun u hu => hsame u (List.mem_cons_of_mem _ hu))
    have hr : phaseResidual (dblLibm a).PI ((dblLibm a).atan2 s.valueComplex s.valueReal) p
        = Dbl.fin false 0 := by
      show phaseResidual (dblLibm a).PI (a s.valueComplex s.valueReal) p = _
      rw [hsame s (List.mem_cons_self _ _)]
      exact Dbl.phaseResidual_finite_self _ p
        (show ((2 : Dbl) * 3.14159265358979323846).isFinite = true by decide!) hp
    simp only [sigmaStep, hr, h1]
    exact Dbl.zero_add_mul_zero_zero _ (hw s (List.mem_cons_self _ _))

theorem Dbl.foldl_weight_nonneg (S : Dbl) (g : List (Sample Dbl)) (acc : Dbl)
    (hacc : 0 ≤ acc) (hw : ∀ s ∈ g, 0 ≤ tmpWeight S s) :
    0 ≤ g.foldl (fun b s => b + tmpWeight S s) acc := by
  induction g generalizing acc with
  | nil => exact hacc
  | cons s t ih =>
    rw [List.foldl_cons]
    exact ih _ (Dbl.nonneg_add _ _ hacc (hw s (List.mem_cons_self _ _)))
      fun u hu => hw u (List.mem_cons_of_mem _ hu)

/-- On doubles, `sqrt(+0 / (W + 1e-30))` is `+0` for every `W ≥ 0`. -/
theorem Dbl.sqrt_zero_div (W : Dbl) (hW : 0 ≤ W) :
    Dbl.sqrt (Dbl.fin false 0 / (W + eps)) = Dbl.fin false 0 := by
  rw [Dbl.zero_div_pos _ (Dbl.add_eps_pos W hW)]
  rfl

/-- On doubles, a group with confidences and distances `≥ 0` and finite weights whose
samples all have the finite phase `p`, and whose representative phase is the same double
`p`, has dispersion `+0`. -/
theorem Dbl.sigma_coherent (a : Dbl → Dbl → Dbl) (g : List (Sample Dbl)) (p : Dbl)
    (h : ∀ s ∈ g, 0 ≤ s.confidenceWeight ∧ 0 ≤ s.distance)
    (hw : ∀ s ∈ g, (tmpWeight (distanceSumLoop g) s).isFinite = true)
    (hp : p.isFinite = true) (hsame : ∀ s ∈ g, a s.valueComplex s.valueReal = p)
    (hrep : weightedPhase (dblLibm a) g = p) :
    (mergeGroup (dblLibm a) g).sigmaPhases = Dbl.fin false 0 := by
  rw [mergeGroup_sigma_eq, hrep, Dbl.foldl_sigmaStep_coherent a _ p hp g _ hw hsame rfl]
  apply Dbl.sqrt_zero_div
  rw [weightSum_eq_foldl]
  apply Dbl.foldl_weight_nonneg _ g _ (by decide!)
  intro s hs
  exact Dbl.nonneg_of_notNeg_isFinite _ (Dbl.notNeg_tmpWeight _ s
    (Dbl.signClear_distanceSumLoop g h) (h s hs).1 (h s hs).2) (hw s hs)

theorem Dbl.accumulateStep_zero (a : Dbl → Dbl → Dbl) (S : Dbl) (s : Sample Dbl)
    (hw : tmpWeight S s = Dbl.fin false 0)
    (hf : s.valueReal.isFinite = true ∧ s.valueComplex.isFinite = true ∧
      (Dbl.sqrt (s.valueReal * s.valueReal + s.valueComplex * s.valueComplex)).isFinite = true ∧
      s.confidenceWeight.isFinite = true ∧ (s.distance + eps).isFinite = true) :
    accumulateStep (dblLibm a) S zeroPoint s = zeroPoint := by
  obtain ⟨f1, f2, f3, f4, f5⟩ := hf
  simp only [accumulateStep, hw, zeroPoint]
  apply MergedGridPoint.eq_of_fields
  · exact Dbl.zero_add_zero_mul _ f3
  · exact Dbl.zero_add_zero_mul _ f1
  · exact Dbl.zero_add_zero_mul _ f2
  · exact Dbl.zero_add_zero_mul _ f4
  · exact Dbl.zero_add_zero_mul _ f5
  · rfl

theorem Dbl.foldl_accumulateStep_zero (a : Dbl → Dbl → Dbl) (S : Dbl) (g : List (Sample Dbl))
    (hw : ∀ s ∈ g, tmpWeight S s = Dbl.fin false 0)
    (hf : ∀ s ∈ g, s.valueReal.isFinite = true ∧ s.valueComplex.isFinite = true ∧
      (Dbl.sqrt (s.valueReal * s.valueReal + s.valueComplex * s.valueComplex)).isFinite = true ∧
      s.confidenceWeight.isFinite = true ∧ (s.distance + eps).isFinite = true) :
    g.foldl (accumulateStep (dblLibm a) S) zeroPoint = zeroPoint := by
  induction g with
  | nil => rfl
  | cons s t ih =>
    rw [List.foldl_cons, Dbl.accumulateStep_zero a S s (hw s (List.mem_cons_self _ _))
      (hf s (List.mem_cons_self _ _))]
    exact ih (fun u hu => hw u (List.mem_cons_of_mem _ hu))
      (fun u hu => hf u (List.mem_cons_of_mem _ hu))

theorem Dbl.foldl_sigmaStep_zero (a : Dbl → Dbl → Dbl) (S q : Dbl) (g : List (Sample Dbl))
    (hw : ∀ s ∈ g, tmpWeight S s = Dbl.fin false 0)
    (hr : ∀ s ∈ g, (phaseResidual (dblLibm a).PI (tmpPhase (dblLibm a) s) q).isFinite = true) :
    g.foldl (sigmaStep (dblLibm a) S q) (Dbl.fin false 0, Dbl.fin false 0)
      = (Dbl.fin false 0, Dbl.fin false 0) := by
  induction g with
  | nil => rfl
  | cons s t ih =>
    rw [List.foldl_cons]
    have e : sigmaStep (dblLibm a) S q (Dbl.fin false 0, Dbl.fin false 0) s
        = (Dbl.fin false 0, Dbl.fin false 0) := by
      have h1 := Dbl.zero_add_zero_mul_mul _ (hr s (List.mem_cons_self _ _))
      simp only [tmpPhase] at h1
      simp only [sigmaStep, hw s (List.mem_cons_self _ _)]
      rw [h1, Dbl.zero_add_signed_zero]
    rw [e]
    exact ih (fun u hu => hw u (List.mem_cons_of_mem _ hu))
      (fun u hu => hr u (List.mem_cons_of_mem _ hu))

/-- On doubles, a group with distances `≥ 0`, confidences `+0`, a normalisation sum that
did not underflow to 0, finite sample values and finite residuals has weights `+0` and
merges to the all-zero record. -/
theorem Dbl.mergeGroup_zero_confidence (a : Dbl → Dbl → Dbl) (g : List (Sample Dbl))
    (hd : ∀ s ∈ g, 0 ≤ s.distance) (hc : ∀ s ∈ g, s.confidenceWeight = 0)
    (hS : 0 < distanceSumLoop g)
    (hf : ∀ s ∈ g, s.valueReal.isFinite = true ∧ s.valueComplex.isFinite = true ∧
      (Dbl.sqrt (s.valueReal * s.valueReal + s.valueComplex * s.valueComplex)).isFinite = true ∧
      (s.distance + eps).isFinite = true ∧
      (phaseResidual (dblLibm a).PI (tmpPhase (dblLibm a) s)
        (weightedPhase (dblLibm a) g)).isFinite = true) :
    (∀ s ∈ g, tmpWeight (distanceSumLoop g) s = 0) ∧ mergeGroup (dblLibm a) g = zeroPoint := by
  have hw : ∀ s ∈ g, tmpWeight (distanceSumLoop g) s = Dbl.fin false 0 :=
    fun s hs => Dbl.tmpWeight_zero _ s hS (hd s hs) (hc s hs)
  have hf2 : ∀ s ∈ g, s.valueReal.isFinite = true ∧ s.valueComplex.isFinite = true ∧
      (Dbl.sqrt (s.valueReal * s.valueReal + s.valueComplex * s.valueComplex)).isFinite = true ∧
      s.confidenceWeight.isFinite = true ∧ (s.distance + eps).isFinite = true := by
    intro s hs
    obtain ⟨f1, f2, f3, f5, -⟩ := hf s hs
    refine ⟨f1, f2, f3, ?_, f5⟩
    rw [hc s hs]
    decide!
  have hout : g.foldl (accumulateStep (dblLibm a) (distanceSumLoop g)) zeroPoint = zeroPoint :=
    Dbl.foldl_accumulateStep_zero a _ g hw hf2
  refine ⟨fun s hs => by rw [hw s hs, Dbl.zero_eq], ?_⟩
  have hsig : (mergeGroup (dblLibm a) g).sigmaPhases = Dbl.fin false 0 := by
    rw [mergeGroup_sigma_eq]
    have e := Dbl.foldl_sigmaStep_zero a (distanceSumLoop g) (weightedPhase (dblLibm a) g) g hw
      (fun s hs => (hf s hs).2.2.2.2)
    have e2 : weightSum (dblLibm a) g = Dbl.fin false 0 := by
      unfold weightSum
      exact congrArg Prod.snd e
    rw [e2]
    have e1 := congrArg Prod.fst e
    simp only at e1
    exact (congrArg (fun x => Dbl.sqrt (x / (Dbl.fin false 0 + eps))) e1).trans (by decide!)
  have hch : ∀ f : MergedGridPoint Dbl → Dbl,
      f (g.foldl (accumulateStep (dblLibm a) (distanceSumLoop g)) zeroPoint) = f zeroPoint :=
    fun f => congrArg f hout
  apply MergedGridPoint.eq_of_fields
  · exact hch (fun o => o.magnitudesOut)
  · exact hch (fun o => o.valuesOutReal)
  · exact hch (fun o => o.valuesOutComplex)
  · exact hch (fun o => o.weightedConfidenceWeights)
  · exact hch (fun o => o.weightedDistances)
  · exact hsig

end DblSign

/-! ## The claims -/

section Claims

variable {α : Type} [LinearOrderedField α]

/-- C1 (amended): a lone sample `(r, i, d, c)` is returned unchanged when its weight is
exactly 1.  In the arithmetic of the code, if `c + 1e-30 = c`, the quotient
`q = c / (d + 1e-30)` satisfies `0 + q = q` and `q / q = 1`, and `0 + 1 * y = y` for each
of `y = r, i, sqrt(r r + i i), c, d + 1e-30` (true of every double except `-0`), then the
weight is 1 and the merge returns `realPart = r`, `imagPart = i`,
`magnitude = sqrt(r r + i i)`, `weightedConfidence = c` and
`weightedDistance = d + 1e-30`. -/
theorem C1_single_sample_identity {α : Type} [Zero α] [OfNat α 1] [OfNat α 2]
    [OfScientific α] [Add α] [Sub α] [Mul α] [Div α] [Neg α] [LT α]
    [DecidableRel fun a b : α => a < b] [FAbs α] (m : Libm α) (r i d c : α)
    (hc : c + eps = c) (hq0 : 0 + c / (d + eps) = c / (d + eps))
    (hq1 : c / (d + eps) / (c / (d + eps)) = 1)
    (hr : 0 + 1 * r = r) (hi : 0 + 1 * i = i)
    (hmag : 0 + 1 * m.sqrt (r * r + i * i) = m.sqrt (r * r + i * i))
    (hcc : 0 + 1 * c = c) (hd : 0 + 1 * (d + eps) = d + eps) :
    tmpWeight (distanceSumLoop [⟨r, i, d, c⟩]) ⟨r, i, d, c⟩ = 1 ∧
    (mergeGroup m [⟨r, i, d, c⟩]).valuesOutReal = r ∧
    (mergeGroup m [⟨r, i, d, c⟩]).valuesOutComplex = i ∧
    (mergeGroup m [⟨r, i, d, c⟩]).magnitudesOut = m.sqrt (r * r + i * i) ∧
    (mergeGroup m [⟨r, i, d, c⟩]).weightedConfidenceWeights = c ∧
    (mergeGroup m [⟨r, i, d, c⟩]).weightedDistances = d + eps := by
  have hw : tmpWeight (distanceSumLoop [⟨r, i, d, c⟩]) ⟨r, i, d, c⟩ = 1 := by
    simp only [tmpWeight, distanceSumLoop, List.foldl, distanceSumStep, hc, hq0, hq1]
  refine ⟨hw, ?_, ?_, ?_, ?_, ?_⟩ <;>
    simp only [mergeGroup, weightGroup, List.foldl, accumulateStep, zeroPoint, hw, hr, hi,
      hmag, hcc, hd]

/-- Witness of C1 on doubles at the sample `(3, 4, 2, 1)`: the weight is exactly 1 and the
merge returns `(3, 4, 5, 1, 2)`. -/
theorem C1_single_sample_identity_witness :
    ((1 : Dbl) + eps = 1 ∧ (0 : Dbl) + 1 / (2 + eps) = 1 / (2 + eps) ∧
      (1 : Dbl) / (2 + eps) / (1 / (2 + eps)) = 1 ∧
      (0 : Dbl) + 1 * 3 = 3 ∧ (0 : Dbl) + 1 * 4 = 4 ∧
      (0 : Dbl) + 1 * Dbl.sqrt (3 * 3 + 4 * 4) = Dbl.sqrt (3 * 3 + 4 * 4) ∧
      (0 : Dbl) + 1 * 1 = 1 ∧ (0 : Dbl) + 1 * (2 + eps) = 2 + eps) ∧
    Dbl.sqrt (3 * 3 + 4 * 4) = 5 ∧ (2 : Dbl) + eps = 2 ∧
    ∀ a : Dbl → Dbl → Dbl,
      (mergeGroup (dblLibm a) [⟨3, 4, 2, 1⟩]).valuesOutReal = 3 ∧
      (mergeGroup (dblLibm a) [⟨3, 4, 2, 1⟩]).valuesOutComplex = 4 ∧
      (mergeGroup (dblLibm a) [⟨3, 4, 2, 1⟩]).magnitudesOut = Dbl.sqrt (3 * 3 + 4 * 4) ∧
      (mergeGroup (dblLibm a) [⟨3, 4, 2, 1⟩]).weightedConfidenceWeights = 1 ∧
      (mergeGroup (dblLibm a) [⟨3, 4, 2, 1⟩]).weightedDistances = 2 + eps :=
  ⟨by decide!, by decide!, by decide!, fun a =>
    (C1_single_sample_identity (dblLibm a) 3 4 2 1 (by decide!) (by decide!) (by decide!)
      (by decide!) (by decide!)
      (show (0 : Dbl) + 1 * Dbl.sqrt (3 * 3 + 4 * 4) = Dbl.sqrt (3 * 3 + 4 * 4) by decide!)
      (by decide!) (by decide!)).2⟩

/-- C1 as stated fails: the single sample `(r, i, d, c) = (1, 0, 0, 0)` has confidence 0,
so its weight is 0 and the merged real part is 0, not `r = 1`; this holds in exact
arithmetic and on doubles. -/
theorem C1_counterexample :
    (mergeGroup (Libm.mk Real.sqrt (fun y x => Complex.arg ⟨x, y⟩) Real.pi)
      [⟨1, 0, 0, 0⟩]).valuesOutReal ≠ 1 ∧
    ((0 : Dbl) ≤ 0 ∧
      tmpWeight (distanceSumLoop ([⟨1, 0, 0, 0⟩] : List (Sample Dbl))) ⟨1, 0, 0, 0⟩ = 0 ∧
      (0 : Dbl) ≠ 1) ∧
    ∀ a : Dbl → Dbl → Dbl, (mergeGroup (dblLibm a) [⟨1, 0, 0, 0⟩]).valuesOutReal = 0 := by
  refine ⟨by simp [mergeGroup, weightGroup, zeroPoint, accumulateStep, tmpWeight],
    by decide!, fun a => ?_⟩
  rw [(mergeGroup_channels_congr (dblLibm a) (dblLibm fun _ _ => 0) rfl [⟨1, 0, 0, 0⟩]).2.1]
  decide!

/-- C2 (amended): an empty group is not an error.  When the run is defined (the processed
groups can all be read and `dimy ≥ 1`) and group `i ≤ numInd - 2` has length 0, the routine
returns normally and output slot `i` holds 0 in all six channels. -/
theorem C2_empty_group_zero_record (m : Libm ℝ) (hm : m.IsExact) (inp : Inputs ℝ) (i : Nat)
    (hdim : 1 ≤ inp.dimy) (hg : ∀ j < inp.numInd - 1, (groupOf inp j).isSome)
    (hi : i < inp.numInd - 1) (hlen : ∃ ind1, groupBounds inp i = some (ind1, 0)) :
    ∃ out, mexFunction m inp = some out ∧ out[i]? = some zeroPoint := by
  obtain ⟨ind1, hb⟩ := hlen
  refine ⟨_, mexFunction_eq m inp hdim hg, ?_⟩
  have hi2 : i < inp.dimy * inp.numInd :=
    lt_of_lt_of_le hi (le_trans (Nat.sub_le _ _) (Nat.le_mul_of_pos_left _ hdim))
  rw [slotsAfter_get m inp _ i hi2, if_pos hi, groupOf_of_length_zero inp i ind1 hb]
  simp [mergeGroup_nil m hm]

/-- Witness of C2: a batch of two output indices whose first group is empty
(`uniqueInd[1] = uniqueInd[0]`). -/
theorem C2_empty_group_zero_record_witness :
    (Libm.mk Real.sqrt (fun y x => Complex.arg ⟨x, y⟩) Real.pi).IsExact ∧
    (∃ ind1, groupBounds (⟨1, 2, [1, 1], [0], [1], [0], [1, 1], [1]⟩ : Inputs ℝ) 0
      = some (ind1, 0)) ∧
    ∃ out, mexFunction (Libm.mk Real.sqrt (fun y x => Complex.arg ⟨x, y⟩) Real.pi)
      ⟨1, 2, [1, 1], [0], [1], [0], [1, 1], [1]⟩ = some out ∧ out[0]? = some zeroPoint :=
  ⟨⟨fun _ => rfl, fun _ _ => rfl, rfl⟩, ⟨0, by simp [groupBounds, readAt]⟩,
    C2_empty_group_zero_record _ ⟨fun _ => rfl, fun _ _ => rfl, rfl⟩
      ⟨1, 2, [1, 1], [0], [1], [0], [1, 1], [1]⟩ 0 (le_refl _)
      (by
        intro j hj
        have hj0 : j = 0 := by simpa using hj
        subst hj0
        simp [groupOf, groupBounds, readAt, readGroup])
      (by norm_num) ⟨0, by simp [groupBounds, readAt]⟩⟩

/-- C2 as stated fails: in this batch group 0 has length 0
(`uniqueInd[multiInd[0]] = uniqueInd[multiInd[0] - 1] = 1`), and the routine does not
fail: it returns, with the all-zero record in slot 0. -/
theorem C2_counterexample :
    groupBounds (⟨1, 2, [1, 1], [0], [1], [0], [1, 1], [1]⟩ : Inputs ℝ) 0 = some (0, 0) ∧
    mexFunction (Libm.mk Real.sqrt (fun y x => Complex.arg ⟨x, y⟩) Real.pi)
      ⟨1, 2, [1, 1], [0], [1], [0], [1, 1], [1]⟩ = some [⟨0, 0, 0, 0, 0, 0⟩, ⟨0, 0, 0, 0, 0, 0⟩] := by
  constructor
  · simp [groupBounds, readAt]
  · simp [mexFunction, outerStep, groupOf, groupBounds, readAt, readGroup, List.range_succ,
      weightGroup, distanceSumLoop, zeroPoint]

/-- C4: for phases `p` and `q` in `(-PI, PI]` the residual of lines 113 to 122 is the
circular distance `min(|p - q|, 2 PI - |p - q|)`, it lies in `[0, PI]`, it is 0 for
`p = q`, and for `p = 170°`, `q = -170°` it is `20°` (angles as multiples of `PI / 180`). -/
theorem C4_wraparound_residual (PI p q : α) (hp : -PI < p ∧ p ≤ PI) (hq : -PI < q ∧ q ≤ PI) :
    phaseResidual PI p q = min |p - q| (2 * PI - |p - q|) ∧
    0 ≤ phaseResidual PI p q ∧ phaseResidual PI p q ≤ PI ∧
    phaseResidual PI p p = 0 ∧
    phaseResidual PI (170 * (PI / 180)) (-170 * (PI / 180)) = 20 * (PI / 180) := by
  obtain ⟨hp1, hp2⟩ := hp
  obtain ⟨hq1, hq2⟩ := hq
  have hPI : 0 < PI := by linarith
  have key := phaseResidual_eq_min PI p q hp1 hp2 hq1 hq2
  have habs : |p - q| < 2 * PI := by rw [abs_lt]; constructor <;> linarith
  refine ⟨key, ?_, ?_, phaseResidual_self PI p hPI, ?_⟩
  · rw [key]; exact le_min (abs_nonneg _) (by linarith)
  · rw [key]
    by_cases h : |p - q| ≤ PI
    · exact le_trans (min_le_left _ _) h
    · exact le_trans (min_le_right _ _) (by linarith)
  · rw [phaseResidual_eq_min PI _ _ (by linarith) (by linarith) (by linarith) (by linarith),
      abs_of_pos (by linarith : 0 < 170 * (PI / 180) - -170 * (PI / 180)),
      min_eq_right (by linarith)]
    ring

/-- Witness of C4: over the reals with `PI = π`, `p = 3` and `q = -3` the residual goes
across the branch cut. -/
theorem C4_wraparound_residual_witness :
    (-Real.pi < 3 ∧ (3 : ℝ) ≤ Real.pi) ∧ (-Real.pi < -3 ∧ (-3 : ℝ) ≤ Real.pi) ∧
    phaseResidual Real.pi 3 (-3) = min |(3 : ℝ) - -3| (2 * Real.pi - |(3 : ℝ) - -3|) :=
  have h3 : (3 : ℝ) < Real.pi := Real.pi_gt_three
  ⟨⟨by linarith, by linarith⟩, ⟨by linarith, by linarith⟩,
    (C4_wraparound_residual Real.pi 3 (-3) ⟨by linarith, by linarith⟩
      ⟨by linarith, by linarith⟩).1⟩

/-- C5: the four weighted linear channels are the reference sums.  With
`S = Σ_j (confidence_j + ε) / (distance_j + ε)` and `w_j = confidence_j / (distance_j + ε) / S`,
`realPart = Σ_j w_j realPart_j`, `imagPart = Σ_j w_j imagPart_j`,
`magnitude = Σ_j w_j sqrt(realPart_j² + imagPart_j²)` and
`weightedConfidence = Σ_j w_j confidence_j`; the code's `distanceSum` is `S` and its
`tmpWeights[j]` is `w_j`. -/
theorem C5_weighted_linear_aggregates (m : Libm α) (g : List (Sample α)) (_hne : g ≠ []) :
    distanceSumLoop g = specS g ∧
    (∀ s, tmpWeight (distanceSumLoop g) s = specWeight g s) ∧
    (mergeGroup m g).valuesOutReal = (g.map fun s => specWeight g s * s.valueReal).sum ∧
    (mergeGroup m g).valuesOutComplex = (g.map fun s => specWeight g s * s.valueComplex).sum ∧
    (mergeGroup m g).magnitudesOut = (g.map fun s => specWeight g s *
      m.sqrt (s.valueReal * s.valueReal + s.valueComplex * s.valueComplex)).sum ∧
    (mergeGroup m g).weightedConfidenceWeights
      = (g.map fun s => specWeight g s * s.confidenceWeight).sum := by
  obtain ⟨h1, h2, h3, h4, _⟩ := mergeGroup_linear m g
  exact ⟨distanceSumLoop_eq_specS g, tmpWeight_eq_specWeight g, h1, h2, h3, h4⟩

/-- Witness of C5 at the two-sample group `(1, 0, 0, 1), (0, 2, 1, 3)` over the reals. -/
theorem C5_weighted_linear_aggregates_witness :
    ([⟨1, 0, 0, 1⟩, ⟨0, 2, 1, 3⟩] : List (Sample ℝ)) ≠ [] ∧
    (mergeGroup (Libm.mk Real.sqrt (fun y x => Complex.arg ⟨x, y⟩) Real.pi)
      [⟨1, 0, 0, 1⟩, ⟨0, 2, 1, 3⟩]).valuesOutReal
      = (([⟨1, 0, 0, 1⟩, ⟨0, 2, 1, 3⟩] : List (Sample ℝ)).map fun s =>
          specWeight [⟨1, 0, 0, 1⟩, ⟨0, 2, 1, 3⟩] s * s.valueReal).sum :=
  ⟨by simp,
    (C5_weighted_linear_aggregates (Libm.mk Real.sqrt (fun y x => Complex.arg ⟨x, y⟩) Real.pi)
      [⟨1, 0, 0, 1⟩, ⟨0, 2, 1, 3⟩] (by simp)).2.2.1⟩

/-- C6 (amended): the weighted distance is `Σ_j w_j (distance_j + ε)`: each distance enters
with the `ε` that line 89 stores in `tmpDistances[j]`. -/
theorem C6_weighted_distance (m : Libm α) (g : List (Sample α)) (_hne : g ≠ []) :
    (mergeGroup m g).weightedDistances
      = (g.map fun s => specWeight g s * (s.distance + eps)).sum :=
  (mergeGroup_linear m g).2.2.2.2

/-- Witness of C6 at the two-sample group `(1, 0, 0, 1), (0, 2, 1, 3)` over the reals. -/
theorem C6_weighted_distance_witness :
    ([⟨1, 0, 0, 1⟩, ⟨0, 2, 1, 3⟩] : List (Sample ℝ)) ≠ [] ∧
    (mergeGroup (Libm.mk Real.sqrt (fun y x => Complex.arg ⟨x, y⟩) Real.pi)
      [⟨1, 0, 0, 1⟩, ⟨0, 2, 1, 3⟩]).weightedDistances
      = (([⟨1, 0, 0, 1⟩, ⟨0, 2, 1, 3⟩] : List (Sample ℝ)).map fun s =>
          specWeight [⟨1, 0, 0, 1⟩, ⟨0, 2, 1, 3⟩] s * (s.distance + eps)).sum :=
  ⟨by simp,
    C6_weighted_distance (Libm.mk Real.sqrt (fun y x => Complex.arg ⟨x, y⟩) Real.pi)
      [⟨1, 0, 0, 1⟩, ⟨0, 2, 1, 3⟩] (by simp)⟩

/-- C6 as stated fails: for the single sample `(1, 0, 0, 1)` (distance 0) the sum
`Σ_j w_j distance_j` is 0, but the weighted distance the code returns is
`ε / (1 + ε) > 0`. -/
theorem C6_counterexample :
    (mergeGroup (Libm.mk Real.sqrt (fun y x => Complex.arg ⟨x, y⟩) Real.pi)
      [⟨1, 0, 0, 1⟩]).weightedDistances
      ≠ (([⟨1, 0, 0, 1⟩] : List (Sample ℝ)).map fun s =>
          specWeight [⟨1, 0, 0, 1⟩] s * s.distance).sum := by
  have e := eps_pos (α := ℝ)
  have h := (mergeGroup_linear (Libm.mk Real.sqrt (fun y x => Complex.arg ⟨x, y⟩) Real.pi)
    [(⟨1, 0, 0, 1⟩ : Sample ℝ)]).2.2.2.2
  rw [h]
  simp only [List.map_cons, List.map_nil, List.sum_cons, List.sum_nil, add_zero, mul_zero,
    zero_add]
  rw [specWeight_single _ (le_refl _)]
  positivity

/-- C7 fails on the code: in this batch `multiInd = [1, 2]` has `N = 2` entries and both
groups hold one sample.  The loop of line 70 stops at `i = numInd - 2 = 0`: slot 0 holds the
merge of group 0, but slot 1 is left as created (all zero), which is not the merge of
group 1. -/
theorem C7_last_slot_left_unmerged :
    ∃ out, mexFunction (Libm.mk Real.sqrt (fun y x => Complex.arg ⟨x, y⟩) Real.pi)
        ⟨1, 2, [1, 2], [0, 1], [1, 0], [0, 2], [1, 2, 3], [1, 3]⟩ = some out ∧
      groupOf (⟨1, 2, [1, 2], [0, 1], [1, 0], [0, 2], [1, 2, 3], [1, 3]⟩ : Inputs ℝ) 0
        = some [⟨1, 0, 0, 1⟩] ∧
      out[0]? = some (mergeGroup (Libm.mk Real.sqrt (fun y x => Complex.arg ⟨x, y⟩) Real.pi)
        [⟨1, 0, 0, 1⟩]) ∧
      groupOf (⟨1, 2, [1, 2], [0, 1], [1, 0], [0, 2], [1, 2, 3], [1, 3]⟩ : Inputs ℝ) 1
        = some [⟨0, 2, 1, 3⟩] ∧
      out[1]? = some zeroPoint ∧
      (mergeGroup (Libm.mk Real.sqrt (fun y x => Complex.arg ⟨x, y⟩) Real.pi)
        [⟨0, 2, 1, 3⟩]).valuesOutComplex ≠ (zeroPoint : MergedGridPoint ℝ).valuesOutComplex := by
  have g0 : groupOf (⟨1, 2, [1, 2], [0, 1], [1, 0], [0, 2], [1, 2, 3], [1, 3]⟩ : Inputs ℝ) 0
      = some [⟨1, 0, 0, 1⟩] := by
    simp [groupOf, groupBounds, readAt, readGroup, readSample]
  have g1 : groupOf (⟨1, 2, [1, 2], [0, 1], [1, 0], [0, 2], [1, 2, 3], [1, 3]⟩ : Inputs ℝ) 1
      = some [⟨0, 2, 1, 3⟩] := by
    simp [groupOf, groupBounds, readAt, readGroup, readSample]
  refine ⟨_, mexFunction_eq _ _ (le_refl _) ?_, g0, ?_, g1, ?_, ?_⟩
  · intro j hj
    have hj0 : j = 0 := by simpa using hj
    subst hj0
    rw [g0]; rfl
  · rw [slotsAfter_get _ _ _ 0 (by norm_num), g0]
    simp
  · rw [slotsAfter_get _ _ _ 1 (by norm_num)]
    simp
  · have e := eps_pos (α := ℝ)
    have h := (mergeGroup_linear (Libm.mk Real.sqrt (fun y x => Complex.arg ⟨x, y⟩) Real.pi)
      [(⟨0, 2, 1, 3⟩ : Sample ℝ)]).2.1
    rw [h]
    simp only [List.map_cons, List.map_nil, List.sum_cons, List.sum_nil, add_zero, zeroPoint]
    rw [specWeight_single _ (by norm_num)]
    positivity

/-- C8 (amended): on doubles a lone sample `(r, i, d, c)` has phase dispersion exactly 0
in two cases.  (a) Its weight is exactly 1 (`c + 1e-30 = c`, and the quotient
`q = c / (d + 1e-30)` has `0 + q = q`, `q / q = 1`), `r` and `i` are not `-0`
(`0 + 1 * r = r`, `0 + 1 * i = i`) and its phase `p = atan2(i, r)` is finite
(`p - p = 0`, `0 < |p + 2 PI - p|`): then the representative phase is `p` itself.
(b) Its weight is exactly 0 and the weighted squared residual `0 * R * R` is 0. -/
theorem C8_single_sample_dispersion (a : Dbl → Dbl → Dbl) (r i d c : Dbl)
    (h : (c + eps = c ∧ 0 + c / (d + eps) = c / (d + eps) ∧
          c / (d + eps) / (c / (d + eps)) = 1 ∧ 0 + 1 * r = r ∧ 0 + 1 * i = i ∧
          a i r - a i r = 0 ∧
          0 < FAbs.fabs (a i r + 2 * 3.14159265358979323846 - a i r)) ∨
        (tmpWeight (distanceSumLoop [⟨r, i, d, c⟩]) ⟨r, i, d, c⟩ = 0 ∧
          0 * phaseResidual 3.14159265358979323846 (a i r) (a (0 + 0 * i) (0 + 0 * r))
            * phaseResidual 3.14159265358979323846 (a i r) (a (0 + 0 * i) (0 + 0 * r))
            = 0)) :
    (mergeGroup (dblLibm a) [⟨r, i, d, c⟩]).sigmaPhases = 0 := by
  rcases h with ⟨hc, hq0, hq1, hr, hi, hp, h2⟩ | ⟨hw, hR⟩
  · have hw : tmpWeight (distanceSumLoop [⟨r, i, d, c⟩]) ⟨r, i, d, c⟩ = 1 := by
      simp only [tmpWeight, distanceSumLoop, List.foldl, distanceSumStep, hc, hq0, hq1]
    have hres : phaseResidual 3.14159265358979323846 (a i r) (a i r) = 0 := by
      have h0 : FAbs.fabs (0 : Dbl) = 0 := by decide!
      simp only [phaseResidual, gt_iff_lt, if_neg (Dbl.not_lt_self (a i r)), hp, h0,
        if_pos h2]
    simp only [mergeGroup, weightGroup, List.foldl, sigmaStep, accumulateStep, zeroPoint, hw,
      dblLibm, hr, hi, hres]
    decide!
  · simp only [mergeGroup, weightGroup, List.foldl, sigmaStep, accumulateStep, zeroPoint, hw,
      dblLibm, hR]
    decide!

/-- Witness of C8 on doubles at the samples `(1, 0, 2, 1)` (weight 1) and `(1, 0, 2, 0)`
(weight 0), with an `atan2` that returns 0 at its calls, which are at `(0, 1)` and
`(0, 0)`. -/
theorem C8_single_sample_dispersion_witness :
    ((1 : Dbl) + eps = 1 ∧ (0 : Dbl) + 1 / (2 + eps) = 1 / (2 + eps) ∧
      (1 : Dbl) / (2 + eps) / (1 / (2 + eps)) = 1 ∧ (0 : Dbl) + 1 * 1 = 1 ∧
      (0 : Dbl) + 1 * 0 = 0 ∧ (0 : Dbl) - 0 = 0 ∧
      (0 : Dbl) < FAbs.fabs ((0 : Dbl) + 2 * 3.14159265358979323846 - 0)) ∧
    tmpWeight (distanceSumLoop ([⟨1, 0, 2, 0⟩] : List (Sample Dbl))) ⟨1, 0, 2, 0⟩ = 0 ∧
    (mergeGroup (dblLibm fun _ _ => 0) [⟨1, 0, 2, 1⟩]).sigmaPhases = 0 ∧
    (mergeGroup (dblLibm fun _ _ => 0) [⟨1, 0, 2, 0⟩]).sigmaPhases = 0 :=
  ⟨by decide!, by decide!,
    C8_single_sample_dispersion (fun _ _ => 0) 1 0 2 1 (Or.inl (by decide!)),
    C8_single_sample_dispersion (fun _ _ => 0) 1 0 2 0 (Or.inr (by decide!))⟩

/-- C8 as stated fails on doubles.  The lone sample `(1, 0, 1e300, 0)` (`d ≥ 0`, `c = 0`)
has weight `0 / 0 = NaN` and dispersion NaN, whatever `atan2` returns.  The lone sample
`(-0, 0, 2, 1)` has dispersion equal to the constant `PI` for every `atan2` with
`atan2(+0, -0) = π` and `atan2(+0, +0) = +0`, as Annex F of the C standard prescribes. -/
theorem C8_counterexample :
    ((0 : Dbl) ≤ 1e300 ∧ (0 : Dbl) ≤ 0 ∧ (0 : Dbl) ≤ 2 ∧ (0 : Dbl) ≤ 1) ∧
    (∀ a : Dbl → Dbl → Dbl,
      (mergeGroup (dblLibm a) [⟨1, 0, 1e300, 0⟩]).sigmaPhases = Dbl.nan) ∧
    Dbl.nan ≠ (0 : Dbl) ∧
    (∀ a : Dbl → Dbl → Dbl, a 0 (-0) = 3.14159265358979323846 → a 0 0 = 0 →
      (mergeGroup (dblLibm a) [⟨-0, 0, 2, 1⟩]).sigmaPhases = 3.14159265358979323846) ∧
    (3.14159265358979323846 : Dbl) ≠ 0 :=
  ⟨by decide!, fun a => sigma_nan_of_weight_nan a _ [] (by decide!), by decide!,
    fun a h1 h2 => sigma_negzero a h1 h2, by decide!⟩

/-- C9 (amended): on doubles, for the two-sample group `(1, 0)`, `(-1, 0)` with equal
confidence `c` and distance `d` such that `c + 1e-30 = c` and the quotient
`q = c / (d + 1e-30)` satisfies `0 + q = q` and `q / (q + q) = 0.5`, both weights are
exactly `0.5` and the merge returns `(realPart, imagPart) = (0, 0)` and `magnitude = 1`. -/
theorem C9_magnitude_vs_complex_sum (a : Dbl → Dbl → Dbl) (d c : Dbl)
    (hc : c + eps = c) (hq0 : 0 + c / (d + eps) = c / (d + eps))
    (hh : c / (d + eps) / (c / (d + eps) + c / (d + eps)) = 0.5) :
    tmpWeight (distanceSumLoop [⟨1, 0, d, c⟩, ⟨-1, 0, d, c⟩]) ⟨1, 0, d, c⟩ = 0.5 ∧
    tmpWeight (distanceSumLoop [⟨1, 0, d, c⟩, ⟨-1, 0, d, c⟩]) ⟨-1, 0, d, c⟩ = 0.5 ∧
    (mergeGroup (dblLibm a) [⟨1, 0, d, c⟩, ⟨-1, 0, d, c⟩]).valuesOutReal = 0 ∧
    (mergeGroup (dblLibm a) [⟨1, 0, d, c⟩, ⟨-1, 0, d, c⟩]).valuesOutComplex = 0 ∧
    (mergeGroup (dblLibm a) [⟨1, 0, d, c⟩, ⟨-1, 0, d, c⟩]).magnitudesOut = 1 := by
  have hw1 : tmpWeight (distanceSumLoop [⟨1, 0, d, c⟩, ⟨-1, 0, d, c⟩]) ⟨1, 0, d, c⟩ = 0.5 := by
    simp only [tmpWeight, distanceSumLoop, List.foldl, distanceSumStep, hc, hq0, hh]
  have hw2 : tmpWeight (distanceSumLoop [⟨1, 0, d, c⟩, ⟨-1, 0, d, c⟩]) ⟨-1, 0, d, c⟩ = 0.5 := by
    simp only [tmpWeight, distanceSumLoop, List.foldl, distanceSumStep, hc, hq0, hh]
  refine ⟨hw1, hw2, ?_, ?_, ?_⟩
  · simp only [mergeGroup, weightGroup, List.foldl, accumulateStep, zeroPoint, hw1, hw2]
    decide!
  · simp only [mergeGroup, weightGroup, List.foldl, accumulateStep, zeroPoint, hw1, hw2]
    decide!
  · simp only [mergeGroup, weightGroup, List.foldl, accumulateStep, zeroPoint, hw1, hw2,
      dblLibm]
    decide!

/-- Witness of C9 on doubles at confidence 1 and distance 0. -/
theorem C9_magnitude_vs_complex_sum_witness :
    ((1 : Dbl) + eps = 1 ∧ (0 : Dbl) + 1 / (0 + eps) = 1 / (0 + eps) ∧
      (1 : Dbl) / (0 + eps) / (1 / (0 + eps) + 1 / (0 + eps)) = 0.5) ∧
    ∀ a : Dbl → Dbl → Dbl,
      (mergeGroup (dblLibm a) [⟨1, 0, 0, 1⟩, ⟨-1, 0, 0, 1⟩]).valuesOutReal = 0 ∧
      (mergeGroup (dblLibm a) [⟨1, 0, 0, 1⟩, ⟨-1, 0, 0, 1⟩]).valuesOutComplex = 0 ∧
      (mergeGroup (dblLibm a) [⟨1, 0, 0, 1⟩, ⟨-1, 0, 0, 1⟩]).magnitudesOut = 1 :=
  ⟨by decide!, fun a =>
    (C9_magnitude_vs_complex_sum a 0 1 (by decide!) (by decide!) (by decide!)).2.2⟩

/-- C9 as stated fails: with equal confidence `c = 1e-30` (that is, `ε`) and distance 0
the merged magnitude of `(1, 0)`, `(-1, 0)` is `1 / 2`, not 1; this holds in exact
arithmetic and on doubles, where both weights are `0.25`. -/
theorem C9_counterexample :
    (0 : ℝ) < eps ∧
    (mergeGroup (Libm.mk Real.sqrt (fun y x => Complex.arg ⟨x, y⟩) Real.pi)
      [⟨1, 0, 0, eps⟩, ⟨-1, 0, 0, eps⟩]).magnitudesOut = 1 / 2 ∧
    ((0 : Dbl) < eps ∧
      tmpWeight (distanceSumLoop ([⟨1, 0, 0, eps⟩, ⟨-1, 0, 0, eps⟩] : List (Sample Dbl)))
        ⟨1, 0, 0, eps⟩ = 0.25 ∧ (0.5 : Dbl) ≠ 1) ∧
    ∀ a : Dbl → Dbl → Dbl,
      (mergeGroup (dblLibm a) [⟨1, 0, 0, eps⟩, ⟨-1, 0, 0, eps⟩]).magnitudesOut = 0.5 := by
  have e := eps_pos (α := ℝ)
  refine ⟨e, ?_, by decide!, fun a => ?_⟩
  · obtain ⟨-, -, h3, -⟩ := mergeGroup_linear
      (Libm.mk Real.sqrt (fun y x => Complex.arg ⟨x, y⟩) Real.pi)
      [(⟨1, 0, 0, eps⟩ : Sample ℝ), ⟨-1, 0, 0, eps⟩]
    obtain ⟨w1, w2⟩ := specWeight_pair (⟨1, 0, 0, eps⟩ : Sample ℝ) ⟨-1, 0, 0, eps⟩
      (le_refl _) rfl rfl e
    simp only [List.map_cons, List.map_nil, List.sum_cons, List.sum_nil, add_zero] at h3
    rw [w1, w2] at h3
    simp only at h3
    rw [h3]
    norm_num
    field_simp
    ring
  · rw [(mergeGroup_channels_congr (dblLibm a) (dblLibm fun _ _ => 0) rfl
      [⟨1, 0, 0, eps⟩, ⟨-1, 0, 0, eps⟩]).1]
    decide!

/-- C12: in a non-empty group with confidences and distances `≥ 0`, multiplying every
confidence by `k > 0` changes a weight only through the `ε` term of `S`: with
`A = Σ_j confidence_j / (distance_j + ε)` and `B = Σ_j 1 / (distance_j + ε)` the weight is
`a_j / (A + ε B)` before and `a_j / (A + (ε / k) B)` after, the two differ by at most
`|1 - 1/k| ε B / S`, and the weight `a_j / A` taken without the `ε` on the confidence is
exactly unchanged. -/
theorem C12_scale_invariance (g : List (Sample α)) (hne : g ≠ [])
    (h : ∀ s ∈ g, 0 ≤ s.confidenceWeight ∧ 0 ≤ s.distance) (k : α) (hk : 0 < k) :
    ∀ s ∈ g,
      tmpWeight (distanceSumLoop g) s
        = s.confidenceWeight / (s.distance + eps) / (confSum g + eps * invDistSum g) ∧
      tmpWeight (distanceSumLoop (g.map (scaleConfidence k))) (scaleConfidence k s)
        = s.confidenceWeight / (s.distance + eps) / (confSum g + eps / k * invDistSum g) ∧
      |tmpWeight (distanceSumLoop (g.map (scaleConfidence k))) (scaleConfidence k s)
          - tmpWeight (distanceSumLoop g) s|
        ≤ |1 - 1 / k| * (eps * invDistSum g / distanceSumLoop g) ∧
      (scaleConfidence k s).confidenceWeight / ((scaleConfidence k s).distance + eps)
          / confSum (g.map (scaleConfidence k))
        = s.confidenceWeight / (s.distance + eps) / confSum g := by
  intro s hs
  have e := eps_pos (α := α)
  have hB := invDistSum_pos g hne h
  have hA := confSum_nonneg g h
  have ha : 0 ≤ s.confidenceWeight / (s.distance + eps) :=
    div_nonneg (h s hs).1 (by linarith [(h s hs).2])
  have haA := term_le_confSum g h s hs
  have hD : 0 < confSum g + eps * invDistSum g := by positivity
  have hD2 : 0 < confSum g + eps / k * invDistSum g := by positivity
  have w1 : tmpWeight (distanceSumLoop g) s
      = s.confidenceWeight / (s.distance + eps) / (confSum g + eps * invDistSum g) := by
    rw [tmpWeight_eq_specWeight, specWeight, specS_eq]
  have w2 := specWeight_scale k hk g s
  rw [← tmpWeight_eq_specWeight] at w2
  refine ⟨w1, w2, ?_, ?_⟩
  · rw [w1, w2, distanceSumLoop_eq_specS, specS_eq]
    have hDE : confSum g + eps * invDistSum g - (confSum g + eps / k * invDistSum g)
        = (1 - 1 / k) * (eps * invDistSum g) := by
      field_simp
      ring
    have hdiff := div_sub_div_same_num (s.confidenceWeight / (s.distance + eps))
      (confSum g + eps * invDistSum g) (confSum g + eps / k * invDistSum g) hD.ne' hD2.ne'
    rw [hDE, mul_div_assoc] at hdiff
    have hle1 : s.confidenceWeight / (s.distance + eps)
        / (confSum g + eps / k * invDistSum g) ≤ 1 := by
      rw [div_le_one hD2]
      have : 0 ≤ eps / k * invDistSum g := by positivity
      linarith
    have hq : 0 ≤ eps * invDistSum g / (confSum g + eps * invDistSum g) := by positivity
    rw [hdiff, abs_mul, abs_mul, abs_of_nonneg (div_nonneg ha hD2.le), abs_of_nonneg hq]
    exact mul_le_of_le_one_left (mul_nonneg (abs_nonneg _) hq) hle1
  · rw [confSum_scale]
    simp only [scaleConfidence]
    rw [mul_div_assoc, mul_div_mul_left _ _ hk.ne']

/-- Witness of C12 at the group `(1, 0, 0, 1), (0, 2, 1, 3)` with `k = 1000`. -/
theorem C12_scale_invariance_witness :
    ([⟨1, 0, 0, 1⟩, ⟨0, 2, 1, 3⟩] : List (Sample ℝ)) ≠ [] ∧
    (∀ s ∈ ([⟨1, 0, 0, 1⟩, ⟨0, 2, 1, 3⟩] : List (Sample ℝ)),
      0 ≤ s.confidenceWeight ∧ 0 ≤ s.distance) ∧ (0 : ℝ) < 1000 ∧
    (scaleConfidence 1000 (⟨1, 0, 0, 1⟩ : Sample ℝ)).confidenceWeight
        / ((scaleConfidence 1000 (⟨1, 0, 0, 1⟩ : Sample ℝ)).distance + eps)
        / confSum (([⟨1, 0, 0, 1⟩, ⟨0, 2, 1, 3⟩] : List (Sample ℝ)).map (scaleConfidence 1000))
      = (⟨1, 0, 0, 1⟩ : Sample ℝ).confidenceWeight / ((⟨1, 0, 0, 1⟩ : Sample ℝ).distance + eps)
        / confSum ([⟨1, 0, 0, 1⟩, ⟨0, 2, 1, 3⟩] : List (Sample ℝ)) :=
  ⟨by simp, by simp, by norm_num,
    (C12_scale_invariance [⟨1, 0, 0, 1⟩, ⟨0, 2, 1, 3⟩] (by simp) (by simp) 1000 (by norm_num)
      ⟨1, 0, 0, 1⟩ (by simp)).2.2.2⟩

/-- C14: the six outputs at a processed output index `i` depend only on the samples in the
index range of group `i`.  Two batches with the same dimensions and index arrays that
agree on the four data arrays at every index of that range (and whose runs are both
defined) return the same record at slot `i`, whatever the other samples are. -/
theorem C14_group_independence (m : Libm α) (inp1 inp2 : Inputs α) (i : Nat)
    (hdim : 1 ≤ inp1.dimy) (hi : i < inp1.numInd - 1)
    (hsame : inp2.dimy = inp1.dimy ∧ inp2.numInd = inp1.numInd ∧
      inp2.multiInd = inp1.multiInd ∧ inp2.uniqueInd = inp1.uniqueInd)
    (hg1 : ∀ j < inp1.numInd - 1, (groupOf inp1 j).isSome)
    (hg2 : ∀ j < inp2.numInd - 1, (groupOf inp2 j).isSome)
    (hagree : ∀ ind1 len, groupBounds inp1 i = some (ind1, len) →
      ∀ k, ind1 ≤ k → k < ind1 + len →
        readAt inp1.masterValuesReal k = readAt inp2.masterValuesReal k ∧
        readAt inp1.masterValuesComplex k = readAt inp2.masterValuesComplex k ∧
        readAt inp1.masterDistances k = readAt inp2.masterDistances k ∧
        readAt inp1.masterConfidenceWeights k = readAt inp2.masterConfidenceWeights k) :
    ∃ out1 out2 p, mexFunction m inp1 = some out1 ∧ mexFunction m inp2 = some out2 ∧
      out1[i]? = some p ∧ out2[i]? = some p := by
  obtain ⟨hd, hn, hmi, hui⟩ := hsame
  have hgroup : groupOf inp2 i = groupOf inp1 i := by
    have hb := groupBounds_congr inp1 inp2 i hmi hui
    unfold groupOf
    rw [hb]
    cases hbi : groupBounds inp1 i with
    | none => rfl
    | some b =>
      obtain ⟨ind1, len⟩ := b
      simp only [Option.bind_eq_bind, Option.some_bind]
      by_cases hlen : len < 0
      · rw [if_pos hlen, if_pos hlen]
      · rw [if_neg hlen, if_neg hlen]
        symm
        apply readGroup_congr
        intro j hj1 hj2
        have hj3 : j < ind1 + len := by
          have := Int.toNat_of_nonneg (not_lt.1 hlen)
          omega
        obtain ⟨e1, e2, e3, e4⟩ := hagree ind1 len hbi j hj1 hj3
        simp only [readSample, e1, e2, e3, e4]
  have hi1 : i < inp1.dimy * inp1.numInd :=
    lt_of_lt_of_le hi (le_trans (Nat.sub_le _ _) (Nat.le_mul_of_pos_left _ hdim))
  refine ⟨_, _, _, mexFunction_eq m inp1 hdim hg1, mexFunction_eq m inp2 (hd ▸ hdim) hg2,
    slotsAfter_get m inp1 _ i hi1, ?_⟩
  rw [slotsAfter_get m inp2 _ i (by rw [hd, hn]; exact hi1), hgroup, hn]

/-- Witness of C14: two batches of two output indices that agree on sample 0 (group 0) and
differ on sample 1. -/
theorem C14_group_independence_witness :
    (0 : Nat) < (⟨1, 2, [1, 2], [0, 1], [1, 0], [0, 2], [1, 2, 3], [1, 3]⟩ : Inputs ℝ).numInd - 1 ∧
    ∃ out1 out2 p,
      mexFunction (Libm.mk Real.sqrt (fun y x => Complex.arg ⟨x, y⟩) Real.pi)
        ⟨1, 2, [1, 2], [0, 1], [1, 0], [0, 2], [1, 2, 3], [1, 3]⟩ = some out1 ∧
      mexFunction (Libm.mk Real.sqrt (fun y x => Complex.arg ⟨x, y⟩) Real.pi)
        ⟨1, 2, [1, 2], [0, 5], [1, 7], [0, 8], [1, 2, 3], [1, 9]⟩ = some out2 ∧
      out1[0]? = some p ∧ out2[0]? = some p :=
  ⟨by norm_num,
    C14_group_independence _ ⟨1, 2, [1, 2], [0, 1], [1, 0], [0, 2], [1, 2, 3], [1, 3]⟩
      ⟨1, 2, [1, 2], [0, 5], [1, 7], [0, 8], [1, 2, 3], [1, 9]⟩ 0 (le_refl _) (by norm_num)
      ⟨rfl, rfl, rfl, rfl⟩
      (by
        intro j hj
        have hj0 : j = 0 := by simpa using hj
        subst hj0
        simp [groupOf, groupBounds, readAt, readGroup, readSample])
      (by
        intro j hj
        have hj0 : j = 0 := by simpa using hj
        subst hj0
        simp [groupOf, groupBounds, readAt, readGroup, readSample])
      (by
        intro ind1 len hb k hk1 hk2
        simp only [groupBounds, readAt] at hb
        simp at hb
        obtain ⟨rfl, rfl⟩ := hb
        have hk0 : k = 0 := by omega
        subst hk0
        simp [readAt])⟩

/-- C18 (amended): in exact arithmetic, in a non-empty group with all distances `≥ 0` in
which every confidence is exactly 0, every weight `w_j` is 0 and all six outputs are 0,
whatever the sample values are.  On doubles the same holds for a group `gd` with all
distances `≥ 0` and all confidences `+0` whose normalisation sum did not underflow
(`distanceSum > 0`) and whose sample values are finite: `realPart_j`, `imagPart_j`,
`sqrt(realPart_j² + imagPart_j²)`, `distance_j + ε` and the phase residual of each
sample. -/
theorem C18_zero_confidence_group (m : Libm ℝ) (hm : m.IsExact) (g : List (Sample ℝ))
    (_hne : g ≠ []) (_hd : ∀ s ∈ g, 0 ≤ s.distance) (hc : ∀ s ∈ g, s.confidenceWeight = 0)
    (a : Dbl → Dbl → Dbl) (gd : List (Sample Dbl))
    (hdd : ∀ s ∈ gd, 0 ≤ s.distance) (hcd : ∀ s ∈ gd, s.confidenceWeight = 0)
    (hS : 0 < distanceSumLoop gd)
    (hf : ∀ s ∈ gd, s.valueReal.isFinite = true ∧ s.valueComplex.isFinite = true ∧
      (Dbl.sqrt (s.valueReal * s.valueReal + s.valueComplex * s.valueComplex)).isFinite = true ∧
      (s.distance + eps).isFinite = true ∧
      (phaseResidual (dblLibm a).PI (tmpPhase (dblLibm a) s)
        (weightedPhase (dblLibm a) gd)).isFinite = true) :
    ((∀ s ∈ g, tmpWeight (distanceSumLoop g) s = 0) ∧ mergeGroup m g = zeroPoint) ∧
    ((∀ s ∈ gd, tmpWeight (distanceSumLoop gd) s = 0) ∧
      mergeGroup (dblLibm a) gd = zeroPoint) := by
  refine ⟨?_, Dbl.mergeGroup_zero_confidence a gd hdd hcd hS hf⟩
  have hw : ∀ s ∈ g, specWeight g s = 0 := fun s hs => specWeight_of_conf_zero g s (hc s hs)
  have hz : ∀ f : Sample ℝ → ℝ, (g.map fun s => specWeight g s * f s).sum = 0 := by
    intro f
    apply List.sum_eq_zero
    intro x hx
    obtain ⟨s, hs, rfl⟩ := List.mem_map.1 hx
    rw [hw s hs, zero_mul]
  obtain ⟨h1, h2, h3, h4, h5⟩ := mergeGroup_linear m g
  refine ⟨fun s hs => by rw [tmpWeight_eq_specWeight]; exact hw s hs, ?_⟩
  apply MergedGridPoint.eq_of_fields
  · rw [h3]; exact hz _
  · rw [h1]; exact hz _
  · rw [h2]; exact hz _
  · rw [h4]; exact hz _
  · rw [h5]; exact hz _
  · rw [mergeGroup_sigma, hm.1]
    have e0 : (g.map fun s => specWeight g s *
        phaseResidual m.PI (tmpPhase m s) (weightedPhase m g) *
        phaseResidual m.PI (tmpPhase m s) (weightedPhase m g)).sum = 0 := by
      apply List.sum_eq_zero
      intro x hx
      obtain ⟨s, hs, rfl⟩ := List.mem_map.1 hx
      rw [hw s hs, zero_mul, zero_mul]
    rw [e0, zero_div, Real.sqrt_zero]
    rfl

/-- Witness of C18 at the group `(3, 4, 2, 0), (-1, 5, 0, 0)`, over the reals and on
doubles; on doubles `atan2` returns the correctly rounded `atan2(4, 3)` and `atan2(5, -1)`
at the two samples and 0 at the merged value `(0, 0)`. -/
theorem C18_zero_confidence_group_witness :
    (Libm.mk Real.sqrt (fun y x => Complex.arg ⟨x, y⟩) Real.pi).IsExact ∧
    ([⟨3, 4, 2, 0⟩, ⟨-1, 5, 0, 0⟩] : List (Sample ℝ)) ≠ [] ∧
    (∀ s ∈ ([⟨3, 4, 2, 0⟩, ⟨-1, 5, 0, 0⟩] : List (Sample ℝ)), 0 ≤ s.distance) ∧
    (∀ s ∈ ([⟨3, 4, 2, 0⟩, ⟨-1, 5, 0, 0⟩] : List (Sample ℝ)), s.confidenceWeight = 0) ∧
    ((∀ s ∈ ([⟨3, 4, 2, 0⟩, ⟨-1, 5, 0, 0⟩] : List (Sample Dbl)), 0 ≤ s.distance) ∧
      (∀ s ∈ ([⟨3, 4, 2, 0⟩, ⟨-1, 5, 0, 0⟩] : List (Sample Dbl)), s.confidenceWeight = 0) ∧
      0 < distanceSumLoop ([⟨3, 4, 2, 0⟩, ⟨-1, 5, 0, 0⟩] : List (Sample Dbl))) ∧
    mergeGroup (Libm.mk Real.sqrt (fun y x => Complex.arg ⟨x, y⟩) Real.pi)
      [⟨3, 4, 2, 0⟩, ⟨-1, 5, 0, 0⟩] = zeroPoint ∧
    mergeGroup (dblLibm fun y _ => if y = 4 then Dbl.ofBits 0x3FEDAC670561BB4F
        else if y = 5 then Dbl.ofBits 0x3FFC4A83936311DA else 0)
      [⟨3, 4, 2, 0⟩, ⟨-1, 5, 0, 0⟩] = zeroPoint :=
  ⟨⟨fun _ => rfl, fun _ _ => rfl, rfl⟩, by simp, by simp, by simp,
    ⟨by decide!, by decide!, by decide!⟩,
    (C18_zero_confidence_group
      (Libm.mk Real.sqrt (fun y x => Complex.arg ⟨x, y⟩) Real.pi)
      ⟨fun _ => rfl, fun _ _ => rfl, rfl⟩
      [⟨3, 4, 2, 0⟩, ⟨-1, 5, 0, 0⟩] (by simp) (by simp) (by simp)
      (fun y _ => if y = 4 then Dbl.ofBits 0x3FEDAC670561BB4F
        else if y = 5 then Dbl.ofBits 0x3FFC4A83936311DA else 0)
      [⟨3, 4, 2, 0⟩, ⟨-1, 5, 0, 0⟩] (by decide!) (by decide!) (by decide!)
      (by decide!)).1.2,
    (C18_zero_confidence_group
      (Libm.mk Real.sqrt (fun y x => Complex.arg ⟨x, y⟩) Real.pi)
      ⟨fun _ => rfl, fun _ _ => rfl, rfl⟩
      [⟨3, 4, 2, 0⟩, ⟨-1, 5, 0, 0⟩] (by simp) (by simp) (by simp)
      (fun y _ => if y = 4 then Dbl.ofBits 0x3FEDAC670561BB4F
        else if y = 5 then Dbl.ofBits 0x3FFC4A83936311DA else 0)
      [⟨3, 4, 2, 0⟩, ⟨-1, 5, 0, 0⟩] (by decide!) (by decide!) (by decide!)
      (by decide!)).2.2⟩

/-- C18 as stated fails on doubles: the one-sample group `(1, 0, 1e300, 0)` has distance
`≥ 0` and confidence exactly 0, but its weight is `0 / 0 = NaN` (`distanceSum` underflows
to 0) and all six outputs are NaN, whatever `atan2` returns. -/
theorem C18_counterexample :
    (∀ s ∈ ([⟨1, 0, 1e300, 0⟩] : List (Sample Dbl)),
      0 ≤ s.distance ∧ s.confidenceWeight = 0) ∧
    tmpWeight (distanceSumLoop ([⟨1, 0, 1e300, 0⟩] : List (Sample Dbl))) ⟨1, 0, 1e300, 0⟩
      = Dbl.nan ∧
    ∀ a : Dbl → Dbl → Dbl,
      mergeGroup (dblLibm a) [⟨1, 0, 1e300, 0⟩]
        = ⟨Dbl.nan, Dbl.nan, Dbl.nan, Dbl.nan, Dbl.nan, Dbl.nan⟩ := by
  refine ⟨by decide!, by decide!, fun a => ?_⟩
  obtain ⟨h1, h2, h3, h4, h5⟩ := mergeGroup_channels_congr (dblLibm a) (dblLibm fun _ _ => 0)
    rfl [⟨1, 0, 1e300, 0⟩]
  apply MergedGridPoint.eq_of_fields
  · rw [h1]; decide!
  · rw [h2]; decide!
  · rw [h3]; decide!
  · rw [h4]; decide!
  · rw [h5]; decide!
  · exact sigma_nan_of_weight_nan a _ [] (by decide!)

/-- C19: the merge does not depend on the order of the samples: for a non-empty group `g`
and any permutation `g2` of it, the six merged outputs are equal (in exact arithmetic). -/
theorem C19_order_independence (m : Libm α) (g g2 : List (Sample α)) (_hne : g ≠ [])
    (hp : g.Perm g2) : mergeGroup m g = mergeGroup m g2 :=
  mergeGroup_perm m hp

/-- Witness of C19 at the group `(1, 0, 0, 1), (0, 2, 1, 3)` and its reversal. -/
theorem C19_order_independence_witness :
    ([⟨1, 0, 0, 1⟩, ⟨0, 2, 1, 3⟩] : List (Sample ℝ)) ≠ [] ∧
    mergeGroup (Libm.mk Real.sqrt (fun y x => Complex.arg ⟨x, y⟩) Real.pi)
      [⟨1, 0, 0, 1⟩, ⟨0, 2, 1, 3⟩]
      = mergeGroup (Libm.mk Real.sqrt (fun y x => Complex.arg ⟨x, y⟩) Real.pi)
        [⟨0, 2, 1, 3⟩, ⟨1, 0, 0, 1⟩] :=
  ⟨by simp, C19_order_independence _ _ _ (by simp) (List.Perm.swap _ _ _)⟩

end Claims

end WeightVals
